import Mathlib

/-! # A* grid search (`astar_visualization.cpp`)

A shallow embedding of the classes `Node` and `AStar` of `astar_visualization.cpp`
and of the search `AStar::findPath`, followed by the properties of the search.

Modelling conventions.

* The C++ `int` is modelled by `Int`.  No coordinate or cost `g` of a search whose
  start lies inside the grid comes near the limits of `int`, where C++ leaves signed
  overflow undefined.  The value of `heuristic` can, when the goal lies far outside the
  grid: `AStar.heuristic32` is the method in 32-bit arithmetic, and equals
  `AStar.heuristic` wherever the Manhattan distance is a value of `int`.
* `Node*` is modelled by the value of the node pointed to, the `parent` pointer by an
  optional node (`none` for `nullptr`).  The search never writes to a node after it has
  pushed it, so sharing is not observable.
* `std::priority_queue` is library code.  It is a parameter of the search
  (`OpenList`), constrained by the contract the C++ standard gives it
  (`OpenList.Lawful`): `top` is an element that no other element precedes in the
  order of the comparator.  `fifoQueue` is one concrete queue; `heapQueue` is the
  binary heap that `libstdc++` implements the queue with (`std::push_heap`,
  `std::pop_heap`), and is proved lawful.
* `obstacles[newY][newX]` is a checked lookup (`AStar.cell`); a lookup outside the
  matrix makes the search stop with `Fault.outOfRange`.
* The `while` loop is iterated under a fuel; `AStar.findPath` supplies `AStar.fuel`,
  which is proved to be enough.
* `std::rand()` is modelled by a list of draws given to `generateObstacles`; the
  `while (true)` loop that places an obstacle runs until the draws are used up.
-/

set_option autoImplicit false

/-! ## Data model -/

/-- Class `Node`: a cell of the grid with its search costs and its parent link. -/
structure Node where
  x : Int
  y : Int
  g : Int
  h : Int
  parent : Option Node

namespace Node

/-- The constructor `Node(int x, int y)`: costs zero, no parent. -/
def new (x y : Int) : Node := ⟨x, y, 0, 0, none⟩

/-- Method `getF`: the total cost `g + h`. -/
def getF (n : Node) : Int := n.g + n.h

/-- The grid position of a node. -/
def pos (n : Node) : Int × Int := (n.x, n.y)

/-- The number of parent links that can be followed from a node. -/
def depth : Node → Nat
  | ⟨_, _, _, _, none⟩ => 0
  | ⟨_, _, _, _, some p⟩ => depth p + 1

end Node

/-- The fields of class `AStar`. -/
structure AStar where
  width : Int
  height : Int
  start : Node
  goal : Node
  obstacles : List (List Int)

/-- The ways a run of the model can stop without a result. -/
inductive Fault where
  | outOfFuel
  | outOfRange

/-- The operations of `std::priority_queue<Node*, std::vector<Node*>, cmp>` that
`findPath` uses.  `pop` is `top()` followed by `pop()`, and is `none` when `empty()`.
`toList` lists the entries currently held. -/
structure OpenList where
  Q : Type
  empty : Q
  push : Q → Node → Q
  pop : Q → Option (Node × Q)
  toList : Q → List Node

/-- The contract of the priority queue under the comparator
`a->getF() > b->getF()`: the entries are those pushed and not yet popped, and the
entry popped has the least `getF` of all. -/
structure OpenList.Lawful (pq : OpenList) : Prop where
  toList_empty : pq.toList pq.empty = []
  toList_push : ∀ q n, (pq.toList (pq.push q n)).Perm (n :: pq.toList q)
  pop_none : ∀ q, pq.pop q = none → pq.toList q = []
  pop_some : ∀ q n q', pq.pop q = some (n, q') →
    (pq.toList q).Perm (n :: pq.toList q') ∧ ∀ m ∈ pq.toList q, n.getF ≤ m.getF

/-- Removes the first entry of least `getF` from a list of nodes. -/
def extractMin : List Node → Option (Node × List Node)
  | [] => none
  | n :: rest =>
    match extractMin rest with
    | none => some (n, [])
    | some (m, rest') => if n.getF ≤ m.getF then some (n, rest) else some (m, n :: rest')

/-- A priority queue that keeps its entries in insertion order and pops the oldest
entry of least `getF`. -/
def fifoQueue : OpenList where
  Q := List Node
  empty := []
  push q n := q ++ [n]
  pop := extractMin
  toList q := q

namespace AStar

/-- Member `directions`. -/
def directions : List (Int × Int) := [(-1, 0), (1, 0), (0, -1), (0, 1)]

/-- Method `heuristic`, its expression in exact arithmetic: the Manhattan distance to
the goal.  `heuristic32` below is the same expression in the arithmetic of `int`. -/
def heuristic (a : AStar) (node : Node) : Int :=
  (Int.natAbs (node.x - a.goal.x) : Int) + (Int.natAbs (node.y - a.goal.y) : Int)

/-- The nodes met by following parent links from `current`, in the order in which
the loop of `reconstructPath` appends them. -/
def backtrack : Node → List Node
  | ⟨x, y, g, h, none⟩ => [⟨x, y, g, h, none⟩]
  | ⟨x, y, g, h, some p⟩ => ⟨x, y, g, h, some p⟩ :: backtrack p

/-- Method `reconstructPath`. -/
def reconstructPath (current : Node) : List Node :=
  (backtrack current).reverse

/-- The lookup `obstacles[newY][newX]`, `none` outside the matrix. -/
def cell (a : AStar) (newX newY : Int) : Option Int :=
  match a.obstacles[newY.toNat]? with
  | none => none
  | some row => row[newX.toNat]?

/-- The search of the closed list for a node at the position of `neighbor`. -/
def inClosed (closedList : List Node) (neighbor : Node) : Bool :=
  closedList.any fun n => n.x == neighbor.x && n.y == neighbor.y

/-- One pass through the body of the `for` loop over `directions`. -/
def visit (pq : OpenList) (a : AStar) (current : Node) (closedList : List Node)
    (openList : pq.Q) (direction : Int × Int) : Except Fault pq.Q :=
  let newX := current.x + direction.1
  let newY := current.y + direction.2
  if newX < 0 ∨ newY < 0 ∨ newX ≥ a.width ∨ newY ≥ a.height then .ok openList
  else
    match a.cell newX newY with
    | none => .error Fault.outOfRange
    | some v =>
      if v = 1 then .ok openList
      else
        let neighbor := Node.new newX newY
        if inClosed closedList neighbor then .ok openList
        else
          .ok (pq.push openList
            { neighbor with g := current.g + 1, h := a.heuristic neighbor, parent := some current })

/-- The `for` loop over the directions still to be visited. -/
def expand (pq : OpenList) (a : AStar) (current : Node) (closedList : List Node) :
    List (Int × Int) → pq.Q → Except Fault pq.Q
  | [], openList => .ok openList
  | direction :: rest, openList =>
    match a.visit pq current closedList openList direction with
    | .error e => .error e
    | .ok openList' => expand pq a current closedList rest openList'

/-- The main `while` loop of `findPath`, run for at most the given number of
passes. -/
def search (pq : OpenList) (a : AStar) : Nat → pq.Q → List Node → Except Fault (List Node)
  | 0, _, _ => .error Fault.outOfFuel
  | fuel + 1, openList, closedList =>
    match pq.pop openList with
    | none => .ok []
    | some (current, openList') =>
      if current.x = a.goal.x ∧ current.y = a.goal.y then .ok (reconstructPath current)
      else
        match a.expand pq current (closedList ++ [current]) directions openList' with
        | .error e => .error e
        | .ok openList'' => search pq a fuel openList'' (closedList ++ [current])

/-- A number of passes of the main loop that every search stays below. -/
def fuel (a : AStar) : Nat :=
  5 ^ (a.width.toNat * a.height.toNat) + 1

/-- Method `findPath`. -/
def findPath (pq : OpenList) (a : AStar) : Except Fault (List Node) :=
  a.search pq a.fuel (pq.push pq.empty a.start) []

end AStar

/-! ## Specification vocabulary -/

namespace AStar

/-- The obstacle matrix has at least `height` rows of at least `width` entries. -/
def Covers (a : AStar) : Prop :=
  a.height ≤ a.obstacles.length ∧ ∀ row ∈ a.obstacles, a.width ≤ row.length

instance (a : AStar) : Decidable a.Covers :=
  inferInstanceAs (Decidable (_ ∧ _))

/-- A position is inside the grid. -/
def InBounds (a : AStar) (p : Int × Int) : Prop :=
  0 ≤ p.1 ∧ p.1 < a.width ∧ 0 ≤ p.2 ∧ p.2 < a.height

/-- A position is inside the grid and not blocked: `obstacles[y][x] != 1`. -/
def Free (a : AStar) (p : Int × Int) : Prop :=
  a.InBounds p ∧ a.cell p.1 p.2 ≠ some 1

instance (a : AStar) (p : Int × Int) : Decidable (a.InBounds p) :=
  inferInstanceAs (Decidable (_ ∧ _))

instance (a : AStar) (p : Int × Int) : Decidable (a.Free p) :=
  inferInstanceAs (Decidable (_ ∧ _))

/-- Two positions are one unit apart along exactly one axis. -/
def Adjacent (p q : Int × Int) : Prop :=
  Int.natAbs (p.1 - q.1) + Int.natAbs (p.2 - q.2) = 1

instance (p q : Int × Int) : Decidable (Adjacent p q) :=
  inferInstanceAs (Decidable (_ = _))

/-- A sequence of free cells, each adjacent to the next. -/
def Walk (a : AStar) (l : List (Int × Int)) : Prop :=
  List.Chain' Adjacent l ∧ ∀ p ∈ l, a.Free p

/-- There is a walk of free cells from `s` to `t`. -/
def Reachable (a : AStar) (s t : Int × Int) : Prop :=
  ∃ l, a.Walk l ∧ l.head? = some s ∧ l.getLast? = some t

/-- The node pushed for the neighbour of `current` in a direction. -/
def child (a : AStar) (current : Node) (direction : Int × Int) : Node :=
  { x := current.x + direction.1
    y := current.y + direction.2
    g := current.g + 1
    h := a.heuristic (Node.new (current.x + direction.1) (current.y + direction.2))
    parent := some current }

/-- The neighbour of `current` in a direction is pushed: it is free and no node of
the closed list is at its position. -/
def Pushes (a : AStar) (current : Node) (closedList : List Node) (direction : Int × Int) : Prop :=
  a.Free (current.x + direction.1, current.y + direction.2) ∧
    (current.x + direction.1, current.y + direction.2) ∉ closedList.map Node.pos

instance (a : AStar) (current : Node) (closedList : List Node) (direction : Int × Int) :
    Decidable (a.Pushes current closedList direction) :=
  inferInstanceAs (Decidable (_ ∧ _))

/-- The nodes pushed while `current` is expanded, in the order of the pushes. -/
def successors (a : AStar) (current : Node) (closedList : List Node) (dirs : List (Int × Int)) :
    List Node :=
  (dirs.filter fun d => decide (a.Pushes current closedList d)).map (a.child current)

/-- The states in which the main loop of `findPath` can stand at its head: the open
list and the closed list. -/
inductive Reach (pq : OpenList) (a : AStar) : pq.Q → List Node → Prop where
  | init : Reach pq a (pq.push pq.empty a.start) []
  | step {openList openList' openList'' : pq.Q} {closedList : List Node} {current : Node} :
      Reach pq a openList closedList →
      pq.pop openList = some (current, openList') →
      ¬ (current.x = a.goal.x ∧ current.y = a.goal.y) →
      a.expand pq current (closedList ++ [current]) directions openList' = .ok openList'' →
      Reach pq a openList'' (closedList ++ [current])

/-- The nodes the search creates, each with the list of nodes from itself back to the
start node along parent links: the start node, and every child of such a node at a free
neighbouring cell. -/
inductive Trail (a : AStar) : Node → List Node → Prop where
  | start : Trail a a.start [a.start]
  | step {p : Node} {l : List Node} (d : Int × Int) :
      Trail a p l → d ∈ directions → a.Free (p.x + d.1, p.y + d.2) →
      Trail a (a.child p d) (a.child p d :: l)

/-- The Manhattan distance from a position to the goal. -/
def hpos (a : AStar) (p : Int × Int) : Int :=
  (Int.natAbs (p.1 - a.goal.x) : Int) + (Int.natAbs (p.2 - a.goal.y) : Int)

/-- What holds of the open and closed lists whenever the main loop is at its head. -/
structure Inv (pq : OpenList) (a : AStar) (q : pq.Q) (c : List Node) : Prop where
  trails : ∀ n ∈ pq.toList q, ∃ l, a.Trail n l ∧ (l.map Node.pos).Nodup ∧
    ∀ m ∈ l.tail, m.pos ∈ c.map Node.pos
  first : c = [] → pq.toList q = [a.start]
  heur : c ≠ [] → ∀ n ∈ pq.toList q, n.h = a.hpos n.pos

/-- The number of cells of the grid. -/
def cells (a : AStar) : Nat := a.width.toNat * a.height.toNat

/-- The weight of an open entry: five to the number of further parent links a node
below it can still have. -/
def weight (a : AStar) (n : Node) : Nat := 5 ^ (a.cells + a.start.depth - n.depth)

/-- The measure that decreases with every pass of the main loop. -/
def measure (a : AStar) (l : List Node) : Nat := (l.map a.weight).sum

/-- There is an open entry from whose cell a walk of free cells leads to the goal, the
cells of the walk after the first are not closed, and the cost of the entry plus the
length of the walk is at most `bound`. -/
def Frontier (a : AStar) (bound : Int) (openNodes closedList : List Node) : Prop :=
  ∃ n ∈ openNodes, ∃ l : List (Int × Int), a.Walk l ∧ l.head? = some n.pos ∧
    l.getLast? = some a.goal.pos ∧ n.g + l.length ≤ bound ∧
    ∀ p ∈ l.tail, p ∉ closedList.map Node.pos

/-- The two ways in which `findPath` returns: with the open list exhausted, or with a
node popped at the goal. -/
inductive Ending (pq : OpenList) (a : AStar) : List Node → Prop where
  | exhausted (q : pq.Q) (c : List Node) :
      Reach pq a q c → pq.pop q = none → Ending pq a []
  | found (q q' : pq.Q) (c : List Node) (current : Node) :
      Reach pq a q c → pq.pop q = some (current, q') →
      current.x = a.goal.x ∧ current.y = a.goal.y → Ending pq a (reconstructPath current)

end AStar

/-! ## Sample searches -/

/-- A 3 by 3 grid whose middle row is a wall with a gap at its right end; the start is
in the top left corner, the goal in the bottom left corner. -/
def wallGrid : AStar :=
  { width := 3, height := 3, start := Node.new 0 0, goal := Node.new 0 2,
    obstacles := [[0, 0, 0], [1, 1, 0], [0, 0, 0]] }

/-- The walk around the wall of `wallGrid`. -/
def wallWalk : List (Int × Int) :=
  [(0, 0), (1, 0), (2, 0), (2, 1), (2, 2), (1, 2), (0, 2)]

/-- The 5 by 5 grid without obstacles, searched from corner to corner. -/
def openGrid : AStar :=
  { width := 5, height := 5, start := Node.new 0 0, goal := Node.new 4 4,
    obstacles := List.replicate 5 (List.replicate 5 0) }

/-- A 3 by 3 grid whose goal, in the bottom right corner, is walled in. -/
def enclosedGoal : AStar :=
  { width := 3, height := 3, start := Node.new 0 0, goal := Node.new 2 2,
    obstacles := [[0, 0, 0], [0, 0, 1], [0, 1, 0]] }

/-- A grid of two cells in a row of which the first, the start, is blocked. -/
def blockedStart : AStar :=
  { width := 2, height := 1, start := Node.new 0 0, goal := Node.new 1 0,
    obstacles := [[1, 0]] }

/-- A grid of two cells in a row of which the second, the goal, is blocked. -/
def blockedGoal : AStar :=
  { width := 2, height := 1, start := Node.new 0 0, goal := Node.new 1 0,
    obstacles := [[0, 1]] }

/-- The grid `wallGrid` with the goal moved onto the start. -/
def sameCell : AStar :=
  { width := 3, height := 3, start := Node.new 0 0, goal := Node.new 0 0,
    obstacles := [[0, 0, 0], [1, 1, 0], [0, 0, 0]] }

/-! ## The binary heap of the C++ library -/

namespace StdHeap

/-- The loop of `std::__push_heap` as `libstdc++` writes it, for `topIndex = 0` and the
comparator `a->getF() > b->getF()`: while the parent of the hole comes after `value`
the parent moves into the hole; at the end `value` fills the hole.  `fuel` bounds the
number of passes; `holeIndex` passes are never exceeded.  The reads are checked; the
branch for a read outside the vector is never taken when the hole is inside it. -/
def pushHeap (value : Node) : Nat → List Node → Nat → List Node
  | 0, v, holeIndex => v.set holeIndex value
  | fuel + 1, v, holeIndex =>
    let parent := (holeIndex - 1) / 2
    match v[parent]? with
    | none => v.set holeIndex value
    | some p =>
      if holeIndex > 0 ∧ p.getF > value.getF then
        pushHeap value fuel (v.set holeIndex p) parent
      else v.set holeIndex value

/-- The `while` loop of `std::__adjust_heap`: while the hole has two children, the
child that the comparator does not put after the other moves into the hole.  Returns
the vector and the index of the hole.  `fuel` bounds the number of passes; `len` passes
are never exceeded, and both children are inside the vector when they are read. -/
def sinkHole : Nat → List Node → Nat → Nat → List Node × Nat
  | 0, v, holeIndex, _ => (v, holeIndex)
  | fuel + 1, v, holeIndex, len =>
    if holeIndex < (len - 1) / 2 then
      let secondChild := 2 * (holeIndex + 1)
      match v[secondChild]?, v[secondChild - 1]? with
      | some r, some l =>
        if r.getF > l.getF then sinkHole fuel (v.set holeIndex l) (secondChild - 1) len
        else sinkHole fuel (v.set holeIndex r) secondChild len
      | _, _ => (v, holeIndex)
    else (v, holeIndex)

/-- The step of `std::__adjust_heap` after its loop: a hole whose only child is the
last element takes that child. -/
def sinkLast (v : List Node) (holeIndex len : Nat) : List Node × Nat :=
  if len % 2 = 0 ∧ holeIndex = (len - 2) / 2 then
    match v[2 * (holeIndex + 1) - 1]? with
    | some c => (v.set holeIndex c, 2 * (holeIndex + 1) - 1)
    | none => (v, holeIndex)
  else (v, holeIndex)

/-- The call `std::__adjust_heap(first, 0, len, value, comp)`. -/
def adjustHeap (v : List Node) (len : Nat) (value : Node) : List Node :=
  let s := sinkHole len v 0 len
  let t := sinkLast s.1 s.2 len
  pushHeap value t.2 t.1 t.2

/-- The call `push(n)` of `std::priority_queue`: `push_back`, then `std::push_heap`. -/
def push (v : List Node) (n : Node) : List Node :=
  pushHeap n v.length (v ++ [n]) v.length

/-- The calls `top()` and `pop()` of `std::priority_queue`: the first element is the
top; `std::pop_heap` puts it last and adjusts the rest, `pop_back` removes it. -/
def pop (v : List Node) : Option (Node × List Node) :=
  match v with
  | [] => none
  | top :: rest =>
    match rest.getLast? with
    | none => some (top, [])
    | some value => some (top, adjustHeap (top :: rest).dropLast rest.length value)

/-- The vectors that pushes and pops make from the empty vector. -/
inductive Built : List Node → Prop where
  | empty : Built []
  | push {v : List Node} (n : Node) : Built v → Built (push v n)
  | pop {v v' : List Node} {top : Node} : Built v → pop v = some (top, v') → Built v'

end StdHeap

/-- The priority queue `std::priority_queue<Node*, std::vector<Node*>, cmp>` of
`libstdc++`: a binary heap in a vector. -/
def heapQueue : OpenList where
  Q := { v : List Node // StdHeap.Built v }
  empty := ⟨[], StdHeap.Built.empty⟩
  push q n := ⟨StdHeap.push q.1 n, StdHeap.Built.push n q.2⟩
  pop q :=
    match h : StdHeap.pop q.1 with
    | none => none
    | some (top, v') => some (top, ⟨v', StdHeap.Built.pop q.2 h⟩)
  toList q := q.1

namespace StdHeap

/-- The heap order of a vector under the comparator `a->getF() > b->getF()`: no
element has a smaller `getF` than its parent. -/
def IsHeap (v : List Node) : Prop :=
  ∀ i a b, 0 < i → v[(i - 1) / 2]? = some a → v[i]? = some b → a.getF ≤ b.getF

/-- The heap order everywhere but between the element at `hole` and its parent, the
children of `hole` being in order with its parent. -/
def HeapBut (v : List Node) (hole : Nat) : Prop :=
  (∀ i a b, 0 < i → i ≠ hole → v[(i - 1) / 2]? = some a → v[i]? = some b →
      a.getF ≤ b.getF) ∧
    (∀ c a b, 0 < hole → 0 < c → (c - 1) / 2 = hole → v[(hole - 1) / 2]? = some a →
      v[c]? = some b → a.getF ≤ b.getF)

end StdHeap

namespace AStar

/-- The open list and the closed list at the head of the main loop of `findPath` after
the given number of passes, `none` if `findPath` has returned or stopped before. -/
def passes (pq : OpenList) (a : AStar) : Nat → pq.Q → List Node → Option (pq.Q × List Node)
  | 0, openList, closedList => some (openList, closedList)
  | n + 1, openList, closedList =>
    match pq.pop openList with
    | none => none
    | some (current, openList') =>
      if current.x = a.goal.x ∧ current.y = a.goal.y then none
      else
        match a.expand pq current (closedList ++ [current]) directions openList' with
        | .error _ => none
        | .ok openList'' => passes pq a n openList'' (closedList ++ [current])

/-- The closed list after the given number of passes of the main loop of `findPath`. -/
def closedAfter (pq : OpenList) (a : AStar) (n : Nat) : Option (List Node) :=
  (a.passes pq n (pq.push pq.empty a.start) []).map fun s => s.2

/-- The entries of the open list after the given number of passes of the main loop of
`findPath`. -/
def openAfter (pq : OpenList) (a : AStar) (n : Nat) : Option (List Node) :=
  (a.passes pq n (pq.push pq.empty a.start) []).map fun s => pq.toList s.1

/-- The node that the main loop of `findPath` pops in the pass after the given number
of passes. -/
def poppedAfter (pq : OpenList) (a : AStar) (n : Nat) : Option Node :=
  (a.passes pq n (pq.push pq.empty a.start) []).bind fun s => (pq.pop s.1).map fun r => r.1

end AStar

/-! ## The obstacle generator -/

/-- The ways a run of the model of `generateObstacles` can stop without returning:
the random draws supplied are used up while the `while (true)` loop still runs (the
grid and the cells assigned until then are kept), a remainder by zero is taken, a cell
outside the grid is written, or `grid[0]` is read from an empty grid. -/
inductive GenFault where
  | outOfDraws (grid : List (List Int)) (written : List (Int × Int))
  | divisionByZero
  | outOfRange
  | emptyGrid

/-- The lookup `grid[y][x]`, `none` outside the grid. -/
def gridCell (grid : List (List Int)) (x y : Int) : Option Int :=
  if x < 0 ∨ y < 0 then none
  else
    match grid[y.toNat]? with
    | none => none
    | some row => row[x.toNat]?

/-- The cells `(x + dx, y + dy)` that the loops `for dx`, `for dy` below `size` run
through, in their order. -/
def squareCells (x y size : Int) : List (Int × Int) :=
  (List.range size.toNat).flatMap fun dx : Nat =>
    (List.range size.toNat).map fun dy : Nat => (x + (dx : Int), y + (dy : Int))

/-- The flag `overlapsStartOrGoal` after the loops that check the square at `(x, y)`. -/
def overlapsStartOrGoal (x y size : Int) (start goal : Node) : Bool :=
  (squareCells x y size).any fun c =>
    decide ((c.1 = start.x ∧ c.2 = start.y) ∨ (c.1 = goal.x ∧ c.2 = goal.y))

/-- The assignment `grid[y + dy][x + dx] = 1`, `none` when the cell is outside the
grid. -/
def markCell (grid : List (List Int)) (c : Int × Int) : Option (List (List Int)) :=
  if c.1 < 0 ∨ c.2 < 0 then none
  else
    match grid[c.2.toNat]? with
    | none => none
    | some row =>
      if c.1.toNat < row.length then some (grid.set c.2.toNat (row.set c.1.toNat 1))
      else none

/-- The loops that place an obstacle: the assignment for each cell of the list. -/
def markCells : List (Int × Int) → List (List Int) → Option (List (List Int))
  | [], grid => some grid
  | c :: cs, grid =>
    match markCell grid c with
    | none => none
    | some grid' => markCells cs grid'

/-- The loop `for (int i = 0; i < numObstacles; ++i)` with its inner `while (true)`
loop, for the obstacles that remain to be placed.  Every try takes two values of
`std::rand()` from `draws`.  Returns the grid and, after `written`, the cells that
were assigned, in the order of the assignments. -/
def placeObstacles (width height size : Int) (start goal : Node) :
    Nat → List Nat → List (List Int) → List (Int × Int) →
      Except GenFault (List (List Int) × List (Int × Int))
  | 0, _, grid, written => .ok (grid, written)
  | remaining + 1, r₁ :: r₂ :: draws, grid, written =>
    if width - size = 0 ∨ height - size = 0 then .error GenFault.divisionByZero
    else
      let x := Int.tmod r₁ (width - size)
      let y := Int.tmod r₂ (height - size)
      if overlapsStartOrGoal x y size start goal then
        placeObstacles width height size start goal (remaining + 1) draws grid written
      else
        match markCells (squareCells x y size) grid with
        | none => .error GenFault.outOfRange
        | some grid' =>
          placeObstacles width height size start goal remaining draws grid'
            (written ++ squareCells x y size)
  | _ + 1, _, grid, written => .error (GenFault.outOfDraws grid written)

/-- Function `generateObstacles`, run on the values `draws` of `std::rand()`: the grid
it leaves and the cells it has assigned 1 to. -/
def generateObstacles (grid : List (List Int)) (numObstacles size : Int) (start goal : Node)
    (draws : List Nat) : Except GenFault (List (List Int) × List (Int × Int)) :=
  match grid with
  | [] => .error GenFault.emptyGrid
  | row :: _ =>
    placeObstacles row.length grid.length size start goal numObstacles.toNat draws grid []

/-- A run of the model of `generateObstacles` has returned, or has run out of draws,
with the given grid and the given cells assigned. -/
def StopsWith (r : Except GenFault (List (List Int) × List (Int × Int)))
    (grid : List (List Int)) (written : List (Int × Int)) : Prop :=
  r = .ok (grid, written) ∨ r = .error (GenFault.outOfDraws grid written)

/-- The grid has `h` rows of `w` entries. -/
def Rect (grid : List (List Int)) (w h : Nat) : Prop :=
  grid.length = h ∧ ∀ row ∈ grid, row.length = w

instance (grid : List (List Int)) (w h : Nat) : Decidable (Rect grid w h) :=
  inferInstanceAs (Decidable (_ ∧ _))

/-- A 3 by 3 grid whose goal, in the top left corner, is walled in; the start is in
the middle. -/
def crossing : AStar :=
  { width := 3, height := 3, start := Node.new 1 1, goal := Node.new 0 0,
    obstacles := [[0, 1, 0], [1, 0, 0], [0, 0, 0]] }

/-- A 4 by 4 grid whose goal, in the top left corner, is walled in; the start is next
to the walls. -/
def crowded : AStar :=
  { width := 4, height := 4, start := Node.new 1 1, goal := Node.new 0 0,
    obstacles := [[0, 1, 0, 0], [1, 0, 0, 0], [0, 0, 0, 0], [0, 0, 0, 0]] }

/-- The 3 by 3 grid without obstacles, searched from the middle of its left side to
its bottom right corner. -/
def tieGrid : AStar :=
  { width := 3, height := 3, start := Node.new 0 1, goal := Node.new 2 2,
    obstacles := [[0, 0, 0], [0, 0, 0], [0, 0, 0]] }

/-- The 3 by 3 grid without obstacles, searched from its middle. -/
def centreGrid : AStar :=
  { width := 3, height := 3, start := Node.new 1 1, goal := Node.new 2 2,
    obstacles := [[0, 0, 0], [0, 0, 0], [0, 0, 0]] }

/-- The position of a node with its total cost `getF`. -/
def Node.key (n : Node) : Int × Int × Int := (n.x, n.y, n.getF)

/-- The 4 by 4 grid without obstacles. -/
def emptyField : List (List Int) :=
  [[0, 0, 0, 0], [0, 0, 0, 0], [0, 0, 0, 0], [0, 0, 0, 0]]

/-! ## The heuristic in the arithmetic of `int`

The source computes `heuristic` in `int`, of 32 bits.  `heuristic` above is the value of
its expression in exact arithmetic; `heuristic32` is the same expression with every
result reduced to the range of `int`, as two's complement hardware does. -/

/-- The least value of an `int`. -/
def intMin : Int := -2147483648

/-- The greatest value of an `int`. -/
def intMax : Int := 2147483647

/-- The `int` that holds the low 32 bits of `v`: `v` itself when it lies between
`intMin` and `intMax`. -/
def wrap32 (v : Int) : Int := (v + 2147483648) % 4294967296 - 2147483648

/-- The function `std::abs` on `int`. -/
def abs32 (v : Int) : Int := wrap32 (if v < 0 then -v else v)

namespace AStar

/-- Method `heuristic`, every subtraction, `std::abs` and the sum carried out in
`int`. -/
def heuristic32 (a : AStar) (node : Node) : Int :=
  wrap32 (abs32 (wrap32 (node.x - a.goal.x)) + abs32 (wrap32 (node.y - a.goal.y)))

/-- The Manhattan distance from `node` to the goal is a value of `int`. -/
def Fits (a : AStar) (node : Node) : Prop :=
  a.heuristic node ≤ intMax

instance (a : AStar) (node : Node) : Decidable (a.Fits node) :=
  inferInstanceAs (Decidable (_ ≤ _))

end AStar

/-- A grid of two free cells whose goal is the node `Node(INT_MIN, 0)`, outside the
grid. -/
def farGoal : AStar :=
  { width := 2, height := 1, start := Node.new 0 0, goal := Node.new (-2147483648) 0,
    obstacles := [[0, 0]] }

/-! ## The list queue is lawful -/

theorem extractMin_none (l : List Node) (h : extractMin l = none) : l = [] := by
  cases l with
  | nil => rfl
  | cons n rest =>
    simp only [extractMin] at h
    split at h
    · cases h
    · split at h <;> cases h

theorem extractMin_some (l : List Node) (n : Node) (l' : List Node)
    (h : extractMin l = some (n, l')) :
    l.Perm (n :: l') ∧ ∀ m ∈ l, n.getF ≤ m.getF := by
  induction l generalizing n l' with
  | nil => simp [extractMin] at h
  | cons a rest ih =>
    simp only [extractMin] at h
    split at h
    · rename_i hr
      have hnil := extractMin_none rest hr
      subst hnil
      simp only [Option.some.injEq, Prod.mk.injEq] at h
      obtain ⟨rfl, rfl⟩ := h
      simp
    · rename_i m rest' hr
      obtain ⟨hp, hmin⟩ := ih m rest' hr
      split at h
      · rename_i hle
        simp only [Option.some.injEq, Prod.mk.injEq] at h
        obtain ⟨rfl, rfl⟩ := h
        refine ⟨List.Perm.refl _, ?_⟩
        intro k hk
        rcases List.mem_cons.1 hk with rfl | hk
        · exact le_refl _
        · exact le_trans hle (hmin k hk)
      · rename_i hle
        simp only [Option.some.injEq, Prod.mk.injEq] at h
        obtain ⟨rfl, rfl⟩ := h
        refine ⟨?_, ?_⟩
        · exact (List.Perm.cons a hp).trans (List.Perm.swap _ _ _)
        · intro k hk
          rcases List.mem_cons.1 hk with rfl | hk
          · omega
          · exact hmin k hk

theorem fifoQueue_lawful : fifoQueue.Lawful where
  toList_empty := rfl
  toList_push := by
    intro q n
    exact List.perm_append_singleton n q
  pop_none := fun q h => extractMin_none q h
  pop_some := fun q n q' h => extractMin_some q n q' h

/-! ## One pass of the main loop -/

namespace AStar

theorem cell_isSome (a : AStar) (hc : a.Covers) (x y : Int) (hb : a.InBounds (x, y)) :
    ∃ v, a.cell x y = some v := by
  obtain ⟨hx0, hxw, hy0, hyh⟩ := hb
  simp only at hx0 hxw hy0 hyh
  obtain ⟨hrows, hcols⟩ := hc
  have hy : y.toNat < a.obstacles.length := by omega
  have hrow : a.obstacles[y.toNat]? = some (a.obstacles[y.toNat]) := List.getElem?_eq_getElem hy
  have hmem : a.obstacles[y.toNat] ∈ a.obstacles := List.getElem_mem hy
  have hw := hcols _ hmem
  have hx : x.toNat < (a.obstacles[y.toNat]).length := by omega
  refine ⟨(a.obstacles[y.toNat])[x.toNat], ?_⟩
  simp only [cell, hrow]
  exact List.getElem?_eq_getElem hx

theorem inClosed_iff (closedList : List Node) (x y : Int) :
    inClosed closedList (Node.new x y) = true ↔ (x, y) ∈ closedList.map Node.pos := by
  simp only [inClosed, Node.new, List.any_eq_true, Bool.and_eq_true, beq_iff_eq, List.mem_map,
    Node.pos, Prod.mk.injEq]

theorem visit_eq (pq : OpenList) (a : AStar) (hc : a.Covers) (current : Node)
    (closedList : List Node) (openList : pq.Q) (d : Int × Int) :
    a.visit pq current closedList openList d =
      .ok (if a.Pushes current closedList d then pq.push openList (a.child current d)
        else openList) := by
  unfold visit
  simp only
  by_cases hout : current.x + d.1 < 0 ∨ current.y + d.2 < 0 ∨ current.x + d.1 ≥ a.width ∨
      current.y + d.2 ≥ a.height
  · rw [if_pos hout]
    have : ¬ a.Pushes current closedList d := by
      rintro ⟨⟨⟨h1, h2, h3, h4⟩, _⟩, _⟩
      simp only at h1 h2 h3 h4
      omega
    rw [if_neg this]
  · rw [if_neg hout]
    have hb : a.InBounds (current.x + d.1, current.y + d.2) := by
      refine ⟨?_, ?_, ?_, ?_⟩ <;> simp only <;> omega
    obtain ⟨v, hv⟩ := a.cell_isSome hc _ _ hb
    rw [hv]
    simp only
    by_cases h1 : v = 1
    · rw [if_pos h1]
      have : ¬ a.Pushes current closedList d := by
        rintro ⟨⟨_, hne⟩, _⟩
        exact hne (by simp only [hv, h1])
      rw [if_neg this]
    · rw [if_neg h1]
      have hfree : a.Free (current.x + d.1, current.y + d.2) := by
        refine ⟨hb, ?_⟩
        simp only [hv, ne_eq, Option.some.injEq]
        exact h1
      by_cases hcl : inClosed closedList (Node.new (current.x + d.1) (current.y + d.2)) = true
      · rw [if_pos hcl]
        have : ¬ a.Pushes current closedList d := by
          rintro ⟨_, hnot⟩
          exact hnot ((inClosed_iff _ _ _).1 hcl)
        rw [if_neg this]
      · rw [if_neg hcl]
        have : a.Pushes current closedList d :=
          ⟨hfree, fun hmem => hcl ((inClosed_iff _ _ _).2 hmem)⟩
        rw [if_pos this]
        rfl

theorem expand_ok (pq : OpenList) (hq : pq.Lawful) (a : AStar) (hc : a.Covers) (current : Node)
    (closedList : List Node) (dirs : List (Int × Int)) (openList : pq.Q) :
    ∃ q, a.expand pq current closedList dirs openList = .ok q ∧
      (pq.toList q).Perm (a.successors current closedList dirs ++ pq.toList openList) := by
  induction dirs generalizing openList with
  | nil => exact ⟨openList, rfl, by simp [successors]⟩
  | cons d rest ih =>
    simp only [expand, a.visit_eq pq hc]
    by_cases hp : a.Pushes current closedList d
    · rw [if_pos hp]
      obtain ⟨q, hq1, hq2⟩ := ih (pq.push openList (a.child current d))
      refine ⟨q, hq1, ?_⟩
      have hsucc : a.successors current closedList (d :: rest) =
          a.child current d :: a.successors current closedList rest := by
        simp [successors, hp]
      rw [hsucc]
      refine hq2.trans ?_
      refine (List.Perm.append_left _ (hq.toList_push openList (a.child current d))).trans ?_
      exact List.perm_middle
    · rw [if_neg hp]
      obtain ⟨q, hq1, hq2⟩ := ih openList
      refine ⟨q, hq1, ?_⟩
      have hsucc : a.successors current closedList (d :: rest) =
          a.successors current closedList rest := by
        simp [successors, hp]
      rw [hsucc]
      exact hq2

/-- What a search that returns has done: it has reached an empty open list, or it has
popped a node at the goal. -/
theorem search_ok (pq : OpenList) (a : AStar) (fuel : Nat) (openList : pq.Q)
    (closedList : List Node) (path : List Node)
    (hr : Reach pq a openList closedList)
    (h : a.search pq fuel openList closedList = .ok path) :
    (∃ q c, Reach pq a q c ∧ pq.pop q = none ∧ path = []) ∨
    (∃ q c current q', Reach pq a q c ∧ pq.pop q = some (current, q') ∧
      (current.x = a.goal.x ∧ current.y = a.goal.y) ∧ path = reconstructPath current) := by
  induction fuel generalizing openList closedList with
  | zero => simp [search] at h
  | succ fuel ih =>
    simp only [search] at h
    split at h
    · rename_i hpop
      left
      refine ⟨openList, closedList, hr, hpop, ?_⟩
      simp only [Except.ok.injEq] at h
      exact h.symm
    · rename_i current q' hpop
      split at h
      · rename_i hgoal
        right
        refine ⟨openList, closedList, current, q', hr, hpop, hgoal, ?_⟩
        simp only [Except.ok.injEq] at h
        exact h.symm
      · rename_i hgoal
        split at h
        · cases h
        · rename_i q'' hexp
          exact ih q'' _ (Reach.step hr hpop hgoal hexp) h

end AStar

/-! ## Parent chains -/

namespace AStar

theorem heuristic_eq_hpos (a : AStar) (n : Node) : a.heuristic n = a.hpos n.pos := rfl

theorem child_pos (a : AStar) (p : Node) (d : Int × Int) :
    (a.child p d).pos = (p.x + d.1, p.y + d.2) := rfl

theorem child_h (a : AStar) (p : Node) (d : Int × Int) :
    (a.child p d).h = a.hpos (a.child p d).pos := rfl

theorem child_g (a : AStar) (p : Node) (d : Int × Int) : (a.child p d).g = p.g + 1 := rfl

theorem child_parent (a : AStar) (p : Node) (d : Int × Int) :
    (a.child p d).parent = some p := rfl

theorem adjacent_of_mem_directions (x y : Int) (d : Int × Int) (hd : d ∈ directions) :
    Adjacent (x + d.1, y + d.2) (x, y) := by
  simp only [directions, List.mem_cons, List.mem_singleton, List.not_mem_nil, or_false] at hd
  rcases hd with rfl | rfl | rfl | rfl <;> simp [Adjacent]

theorem mem_directions_of_adjacent (p q : Int × Int) (h : Adjacent p q) :
    ∃ d ∈ directions, p = (q.1 + d.1, q.2 + d.2) := by
  obtain ⟨p1, p2⟩ := p
  obtain ⟨q1, q2⟩ := q
  simp only [Adjacent] at h
  simp only [directions, List.mem_cons, List.mem_singleton, List.not_mem_nil, or_false,
    exists_eq_or_imp, exists_eq_left, Prod.mk.injEq]
  omega

theorem Trail.head {a : AStar} {n : Node} {l : List Node} (h : a.Trail n l) :
    ∃ t, l = n :: t := by
  cases h with
  | start => exact ⟨[], rfl⟩
  | step d hp hd hf => exact ⟨_, rfl⟩

theorem Trail.getLast {a : AStar} {n : Node} {l : List Node} (h : a.Trail n l) :
    l.getLast? = some a.start := by
  induction h with
  | start => rfl
  | step d hp hd hf ih =>
    obtain ⟨t, rfl⟩ := hp.head
    rw [List.getLast?_cons_cons]
    exact ih

theorem backtrack_of_parent_none (n : Node) (h : n.parent = none) : backtrack n = [n] := by
  obtain ⟨x, y, g, h', p⟩ := n
  simp only at h
  subst h
  simp [backtrack]

theorem backtrack_of_parent_some (n p : Node) (h : n.parent = some p) :
    backtrack n = n :: backtrack p := by
  obtain ⟨x, y, g, h', p'⟩ := n
  simp only at h
  subst h
  simp [backtrack]

theorem Trail.backtrack_eq {a : AStar} {n : Node} {l : List Node} (h : a.Trail n l)
    (hs : a.start.parent = none) : backtrack n = l := by
  induction h with
  | start => exact backtrack_of_parent_none _ hs
  | step d hp hd hf ih =>
    rw [backtrack_of_parent_some _ _ (a.child_parent _ d), ih]

theorem Trail.g_eq {a : AStar} {n : Node} {l : List Node} (h : a.Trail n l) :
    n.g + 1 = a.start.g + l.length := by
  induction h with
  | start => simp
  | step d hp hd hf ih =>
    simp only [child_g, List.length_cons, Nat.cast_add, Nat.cast_one]
    omega

theorem child_depth (a : AStar) (p : Node) (d : Int × Int) :
    (a.child p d).depth = p.depth + 1 := by
  simp [child, Node.depth]

theorem Trail.depth_eq {a : AStar} {n : Node} {l : List Node} (h : a.Trail n l) :
    n.depth + 1 = a.start.depth + l.length := by
  induction h with
  | start => simp
  | step d hp hd hf ih =>
    rw [child_depth, List.length_cons]
    omega

/-- Along a trail each node is adjacent to the next, costs one more and has it as its
parent. -/
theorem Trail.chain {a : AStar} {n : Node} {l : List Node} (h : a.Trail n l) :
    List.Chain' (fun c p => Adjacent c.pos p.pos ∧ c.g = p.g + 1 ∧ c.parent = some p) l := by
  induction h with
  | start => simp
  | step d hp hd hf ih =>
    obtain ⟨t, rfl⟩ := hp.head
    refine List.Chain'.cons ?_ ih
    exact ⟨adjacent_of_mem_directions _ _ d hd, rfl, rfl⟩

/-- Every node of a trail but the start node lies on a free cell and carries the
Manhattan distance to the goal. -/
theorem Trail.free {a : AStar} {n : Node} {l : List Node} (h : a.Trail n l) :
    ∀ m ∈ l.dropLast, a.Free m.pos ∧ m.h = a.hpos m.pos := by
  induction h with
  | start => simp
  | step d hp hd hf ih =>
    obtain ⟨t, rfl⟩ := hp.head
    intro m hm
    rw [List.dropLast_cons₂, List.mem_cons] at hm
    rcases hm with rfl | hm
    · exact ⟨hf, rfl⟩
    · exact ih m hm

end AStar

/-! ## Invariants of the main loop -/

namespace AStar

theorem mem_successors {a : AStar} {current : Node} {closedList : List Node}
    {dirs : List (Int × Int)} {n : Node} (h : n ∈ a.successors current closedList dirs) :
    ∃ d ∈ dirs, a.Pushes current closedList d ∧ n = a.child current d := by
  simp only [successors, List.mem_map, List.mem_filter, decide_eq_true_eq] at h
  obtain ⟨d, ⟨hd, hp⟩, rfl⟩ := h
  exact ⟨d, hd, hp, rfl⟩

theorem mem_successors_of_pushes {a : AStar} {current : Node} {closedList : List Node}
    {dirs : List (Int × Int)} {d : Int × Int} (hd : d ∈ dirs)
    (hp : a.Pushes current closedList d) :
    a.child current d ∈ a.successors current closedList dirs := by
  simp only [successors, List.mem_map, List.mem_filter, decide_eq_true_eq]
  exact ⟨d, ⟨hd, hp⟩, rfl⟩

/-- The entries of the open list after one pass of the main loop. -/
theorem Reach.step_perm {pq : OpenList} (hq : pq.Lawful) {a : AStar} (hc : a.Covers)
    {q q' q'' : pq.Q} {c : List Node} {current : Node}
    (hpop : pq.pop q = some (current, q'))
    (hexp : a.expand pq current (c ++ [current]) directions q' = .ok q'') :
    (pq.toList q).Perm (current :: pq.toList q') ∧
    (∀ m ∈ pq.toList q, current.getF ≤ m.getF) ∧
    (pq.toList q'').Perm (a.successors current (c ++ [current]) directions ++ pq.toList q') := by
  obtain ⟨hp, hmin⟩ := hq.pop_some q current q' hpop
  obtain ⟨r, hr1, hr2⟩ := a.expand_ok pq hq hc current (c ++ [current]) directions q'
  rw [hexp] at hr1
  simp only [Except.ok.injEq] at hr1
  subst hr1
  exact ⟨hp, hmin, hr2⟩

theorem Reach.inv {pq : OpenList} (hq : pq.Lawful) {a : AStar} (hc : a.Covers)
    {q : pq.Q} {c : List Node} (hr : Reach pq a q c) : Inv pq a q c := by
  induction hr with
  | init =>
    have hperm := hq.toList_push pq.empty a.start
    rw [hq.toList_empty] at hperm
    have heq : pq.toList (pq.push pq.empty a.start) = [a.start] := List.perm_singleton.1 hperm
    refine ⟨?_, fun _ => heq, fun h => absurd rfl h⟩
    intro n hn
    rw [heq, List.mem_singleton] at hn
    subst hn
    exact ⟨[a.start], Trail.start, by simp, by simp⟩
  | @step q q' q'' c current hr hpop hgoal hexp ih =>
    obtain ⟨hp, hmin, hp''⟩ := Reach.step_perm hq hc hpop hexp
    have hcur : current ∈ pq.toList q := hp.symm.subset (List.mem_cons_self _ _)
    have hold : ∀ n ∈ pq.toList q', n ∈ pq.toList q :=
      fun n hn => hp.symm.subset (List.mem_cons_of_mem _ hn)
    refine ⟨?_, fun h => absurd h (by simp), ?_⟩
    · intro n hn
      rcases List.mem_append.1 (hp''.subset hn) with hn | hn
      · obtain ⟨d, hd, ⟨hfree, hnot⟩, rfl⟩ := mem_successors hn
        obtain ⟨l, hl, hnd, htail⟩ := ih.trails current hcur
        obtain ⟨t, rfl⟩ := hl.head
        have hsub : ∀ m ∈ current :: t, m.pos ∈ (c ++ [current]).map Node.pos := by
          intro m hm
          rcases List.mem_cons.1 hm with rfl | hm
          · simp
          · have := htail m hm
            simp only [List.map_append, List.mem_append]
            exact Or.inl this
        refine ⟨a.child current d :: current :: t, Trail.step d hl hd hfree, ?_, hsub⟩
        rw [List.map_cons, List.nodup_cons]
        refine ⟨?_, hnd⟩
        intro hmem
        obtain ⟨m, hm, hmpos⟩ := List.mem_map.1 hmem
        apply hnot
        rw [← child_pos, ← hmpos]
        exact hsub m hm
      · obtain ⟨l, hl, hnd, htail⟩ := ih.trails n (hold n hn)
        refine ⟨l, hl, hnd, ?_⟩
        intro m hm
        have := htail m hm
        simp only [List.map_append, List.mem_append]
        exact Or.inl this
    · intro _ n hn
      rcases List.mem_append.1 (hp''.subset hn) with hn | hn
      · obtain ⟨d, hd, _, rfl⟩ := mem_successors hn
        exact child_h a current d
      · by_cases hcnil : c = []
        · have h1 := ih.first hcnil
          rw [h1] at hp
          have hlen := hp.length_eq
          rw [List.length_singleton, List.length_cons] at hlen
          have hnil : pq.toList q' = [] := List.length_eq_zero.1 (by omega)
          rw [hnil] at hn
          cases hn
        · exact ih.heur hcnil n (hold n hn)

end AStar

/-! ## Termination -/

namespace AStar

theorem length_le_cells (a : AStar) (l : List (Int × Int)) (hnd : l.Nodup)
    (hb : ∀ p ∈ l, a.InBounds p) : l.length ≤ a.cells := by
  have hsub : l.toFinset ⊆ Finset.Ico 0 a.width ×ˢ Finset.Ico 0 a.height := by
    intro p hp
    rw [List.mem_toFinset] at hp
    obtain ⟨h1, h2, h3, h4⟩ := hb p hp
    simp only [Finset.mem_product, Finset.mem_Ico]
    exact ⟨⟨h1, h2⟩, ⟨h3, h4⟩⟩
  have hcard := Finset.card_le_card hsub
  rw [List.toFinset_card_of_nodup hnd, Finset.card_product, Int.card_Ico, Int.card_Ico] at hcard
  simpa [cells] using hcard

theorem Trail.length_le {a : AStar} {n : Node} {l : List Node} (h : a.Trail n l)
    (hnd : (l.map Node.pos).Nodup) : l.length ≤ a.cells + 1 := by
  have h1 : (l.dropLast.map Node.pos).Nodup :=
    hnd.sublist ((List.dropLast_sublist l).map Node.pos)
  have h2 : ∀ p ∈ l.dropLast.map Node.pos, a.InBounds p := by
    intro p hp
    obtain ⟨m, hm, rfl⟩ := List.mem_map.1 hp
    exact (h.free m hm).1.1
  have h3 := a.length_le_cells _ h1 h2
  rw [List.length_map, List.length_dropLast] at h3
  omega

theorem Inv.depth_le {pq : OpenList} {a : AStar} {q : pq.Q} {c : List Node}
    (hi : Inv pq a q c) {n : Node} (hn : n ∈ pq.toList q) :
    n.depth ≤ a.cells + a.start.depth := by
  obtain ⟨l, hl, hnd, _⟩ := hi.trails n hn
  have h1 := hl.length_le hnd
  have h2 := hl.depth_eq
  omega

theorem weight_pos (a : AStar) (n : Node) : 0 < a.weight n :=
  Nat.pos_pow_of_pos _ (by decide)

theorem sum_weight_le (a : AStar) (w : Nat) (l : List Node)
    (h : ∀ n ∈ l, 5 * a.weight n ≤ w) : 5 * a.measure l ≤ l.length * w := by
  induction l with
  | nil => simp [measure]
  | cons n t ih =>
    have h1 := h n (List.mem_cons_self _ _)
    have h2 := ih fun m hm => h m (List.mem_cons_of_mem _ hm)
    simp only [measure, List.map_cons, List.sum_cons, List.length_cons] at h2 ⊢
    rw [Nat.mul_add, Nat.add_mul, Nat.one_mul]
    omega

theorem measure_append (a : AStar) (l₁ l₂ : List Node) :
    a.measure (l₁ ++ l₂) = a.measure l₁ + a.measure l₂ := by
  simp [measure]

theorem measure_perm (a : AStar) {l₁ l₂ : List Node} (h : l₁.Perm l₂) :
    a.measure l₁ = a.measure l₂ :=
  (h.map a.weight).sum_eq

theorem successors_length_le (a : AStar) (current : Node) (closedList : List Node) :
    (a.successors current closedList directions).length ≤ 4 := by
  simp only [successors, List.length_map]
  exact (List.length_filter_le _ _).trans (by simp [directions])

/-- Every pass of the main loop that does not return lowers the measure of the open
list. -/
theorem Reach.measure_lt {pq : OpenList} (hq : pq.Lawful) {a : AStar} (hc : a.Covers)
    {q q' q'' : pq.Q} {c : List Node} {current : Node}
    (hr : Reach pq a q c)
    (hpop : pq.pop q = some (current, q'))
    (hgoal : ¬ (current.x = a.goal.x ∧ current.y = a.goal.y))
    (hexp : a.expand pq current (c ++ [current]) directions q' = .ok q'') :
    a.measure (pq.toList q'') < a.measure (pq.toList q) := by
  obtain ⟨hp, _, hp''⟩ := Reach.step_perm hq hc hpop hexp
  have hi' := (Reach.step hr hpop hgoal hexp).inv hq hc
  rw [a.measure_perm hp, a.measure_perm hp'', measure_append]
  have hcons : a.measure (current :: pq.toList q') =
      a.weight current + a.measure (pq.toList q') := by
    simp [measure]
  rw [hcons]
  have hsucc : ∀ n ∈ a.successors current (c ++ [current]) directions,
      5 * a.weight n ≤ a.weight current := by
    intro n hn
    have hmem : n ∈ pq.toList q'' := hp''.symm.subset (List.mem_append_left _ hn)
    have hd := hi'.depth_le hmem
    obtain ⟨d, _, _, rfl⟩ := mem_successors hn
    rw [child_depth] at hd
    simp only [weight, child_depth]
    have : a.cells + a.start.depth - current.depth =
        (a.cells + a.start.depth - (current.depth + 1)) + 1 := by omega
    rw [this, Nat.pow_succ]
    omega
  have h1 := a.sum_weight_le _ _ hsucc
  have h2 := a.successors_length_le current (c ++ [current])
  have h3 := a.weight_pos current
  have h4 : (a.successors current (c ++ [current]) directions).length * a.weight current ≤
      4 * a.weight current := Nat.mul_le_mul_right _ h2
  omega

/-- The main loop returns within as many passes as the measure of its open list,
plus one. -/
theorem search_terminates (pq : OpenList) (hq : pq.Lawful) (a : AStar) (hc : a.Covers)
    (fuel : Nat) (q : pq.Q) (c : List Node) (hr : Reach pq a q c)
    (hm : a.measure (pq.toList q) < fuel) :
    ∃ path, a.search pq fuel q c = .ok path := by
  induction fuel generalizing q c with
  | zero => omega
  | succ fuel ih =>
    simp only [search]
    cases hpop : pq.pop q with
    | none => exact ⟨[], rfl⟩
    | some r =>
      obtain ⟨current, q'⟩ := r
      simp only
      by_cases hgoal : current.x = a.goal.x ∧ current.y = a.goal.y
      · rw [if_pos hgoal]
        exact ⟨_, rfl⟩
      · rw [if_neg hgoal]
        obtain ⟨q'', hexp, _⟩ := a.expand_ok pq hq hc current (c ++ [current]) directions q'
        rw [hexp]
        simp only
        have hlt := Reach.measure_lt hq hc hr hpop hgoal hexp
        exact ih q'' _ (Reach.step hr hpop hgoal hexp) (by omega)

/-- On a grid covered by the obstacle matrix `findPath` returns. -/
theorem findPath_returns (pq : OpenList) (hq : pq.Lawful) (a : AStar) (hc : a.Covers) :
    ∃ path, a.findPath pq = .ok path := by
  refine a.search_terminates pq hq hc a.fuel _ [] Reach.init ?_
  have h := (Reach.init : Reach pq a _ _).inv hq hc
  rw [h.first rfl]
  simp [measure, weight, fuel, cells]

end AStar

/-! ## Walks and the heuristic -/

namespace AStar

theorem Adjacent.symm {p q : Int × Int} (h : Adjacent p q) : Adjacent q p := by
  simp only [Adjacent] at h ⊢
  omega

theorem hpos_nonneg (a : AStar) (p : Int × Int) : 0 ≤ a.hpos p := by
  simp only [hpos]
  omega

theorem hpos_le_of_adjacent (a : AStar) {p q : Int × Int} (h : Adjacent p q) :
    a.hpos p ≤ a.hpos q + 1 := by
  simp only [Adjacent] at h
  simp only [hpos]
  omega

theorem hpos_goal (a : AStar) : a.hpos a.goal.pos = 0 := by
  simp [hpos, Node.pos]

/-- The heuristic drops by at most one with every step of a chain of adjacent cells. -/
theorem hpos_le_of_chain (a : AStar) (l : List (Int × Int)) (p q : Int × Int)
    (hch : List.Chain' Adjacent (p :: l)) (hlast : (p :: l).getLast? = some q) :
    a.hpos p ≤ a.hpos q + l.length := by
  induction l generalizing p with
  | nil =>
    simp only [List.getLast?_singleton, Option.some.injEq] at hlast
    subst hlast
    simp
  | cons r t ih =>
    rw [List.chain'_cons] at hch
    rw [List.getLast?_cons_cons] at hlast
    have h1 := ih r hch.2 hlast
    have h2 := a.hpos_le_of_adjacent hch.1
    simp only [List.length_cons, Nat.cast_add, Nat.cast_one]
    omega

theorem exists_last_occurrence {α : Type} (x : α) (l : List α) (h : x ∈ l) :
    ∃ l₁ l₂, l = l₁ ++ x :: l₂ ∧ x ∉ l₂ := by
  induction l with
  | nil => cases h
  | cons y t ih =>
    by_cases ht : x ∈ t
    · obtain ⟨l₁, l₂, h1, h2⟩ := ih ht
      exact ⟨y :: l₁, l₂, by rw [h1, List.cons_append], h2⟩
    · rcases List.mem_cons.1 h with rfl | h
      · exact ⟨[], t, rfl, ht⟩
      · exact absurd h ht

theorem Walk.right {a : AStar} (l₁ l₂ : List (Int × Int)) (h : a.Walk (l₁ ++ l₂)) :
    a.Walk l₂ :=
  ⟨h.1.right_of_append, fun p hp => h.2 p (List.mem_append_right _ hp)⟩

theorem Walk.left {a : AStar} (l₁ l₂ : List (Int × Int)) (h : a.Walk (l₁ ++ l₂)) :
    a.Walk l₁ :=
  ⟨h.1.left_of_append, fun p hp => h.2 p (List.mem_append_left _ hp)⟩

/-- Expanding a node from whose cell a walk leads to the goal through cells that are
not closed pushes the next cell of the walk. -/
theorem frontier_push (a : AStar) (bound : Int) (current : Node) (c openNodes : List Node)
    (w : List (Int × Int))
    (hgoal : ¬ (current.x = a.goal.x ∧ current.y = a.goal.y))
    (hw : a.Walk (current.pos :: w)) (hlast : (current.pos :: w).getLast? = some a.goal.pos)
    (hnot : current.pos ∉ w) (hcl : ∀ p ∈ w, p ∉ c.map Node.pos)
    (hb : current.g + ((w.length : Int) + 1) ≤ bound)
    (hsub : ∀ n ∈ a.successors current (c ++ [current]) directions, n ∈ openNodes) :
    a.Frontier bound openNodes (c ++ [current]) := by
  cases w with
  | nil =>
    exfalso
    simp only [List.getLast?_singleton, Option.some.injEq, Node.pos, Prod.mk.injEq] at hlast
    exact hgoal hlast
  | cons p t =>
    have hadj : Adjacent current.pos p := (List.chain'_cons.1 hw.1).1
    obtain ⟨d, hd, hpd⟩ := mem_directions_of_adjacent p current.pos hadj.symm
    have hfree : a.Free p := hw.2 p (by simp)
    have hne : p ≠ current.pos := fun h => hnot (by rw [← h]; simp)
    have hpush : a.Pushes current (c ++ [current]) d := by
      refine ⟨?_, ?_⟩
      · have : (current.x + d.1, current.y + d.2) = p := hpd.symm
        rw [this]
        exact hfree
      · have : (current.x + d.1, current.y + d.2) = p := hpd.symm
        rw [this]
        simp only [List.map_append, List.map_cons, List.map_nil, List.mem_append,
          List.mem_singleton, not_or]
        exact ⟨hcl p (by simp), hne⟩
    refine ⟨a.child current d, hsub _ (mem_successors_of_pushes hd hpush), p :: t, ?_, ?_, ?_,
      ?_, ?_⟩
    · exact Walk.right [current.pos] _ hw
    · rw [child_pos, List.head?_cons, hpd]
      rfl
    · rw [List.getLast?_cons_cons] at hlast
      exact hlast
    · rw [child_g]
      simp only [List.length_cons, Nat.cast_add, Nat.cast_one] at hb ⊢
      omega
    · intro r hr
      simp only [List.tail_cons] at hr
      simp only [List.map_append, List.map_cons, List.map_nil, List.mem_append,
        List.mem_singleton, not_or]
      refine ⟨hcl r (List.mem_cons_of_mem _ hr), ?_⟩
      rintro rfl
      exact hnot (List.mem_cons_of_mem _ hr)

/-- One pass of the main loop keeps the frontier property. -/
theorem Reach.frontier_step {pq : OpenList} (hq : pq.Lawful) {a : AStar} (hc : a.Covers)
    {q q' q'' : pq.Q} {c : List Node} {current : Node} (bound : Int)
    (hr : Reach pq a q c)
    (hpop : pq.pop q = some (current, q'))
    (hgoal : ¬ (current.x = a.goal.x ∧ current.y = a.goal.y))
    (hexp : a.expand pq current (c ++ [current]) directions q' = .ok q'')
    (hf : a.Frontier bound (pq.toList q) c) :
    a.Frontier bound (pq.toList q'') (c ++ [current]) := by
  obtain ⟨hp, hmin, hp''⟩ := Reach.step_perm hq hc hpop hexp
  have hi := hr.inv hq hc
  have hsub : ∀ n ∈ a.successors current (c ++ [current]) directions, n ∈ pq.toList q'' :=
    fun n hn => hp''.symm.subset (List.mem_append_left _ hn)
  obtain ⟨n, hn, l, hw, hhead, hlast, hb, hdisj⟩ := hf
  cases l with
  | nil => simp at hhead
  | cons p t =>
    simp only [List.head?_cons, Option.some.injEq] at hhead
    subst hhead
    simp only [List.tail_cons] at hdisj
    by_cases hmn : current = n
    · subst hmn
      obtain ⟨l₁, l₂, hsplit, hnot⟩ :=
        exists_last_occurrence current.pos (current.pos :: t) (List.mem_cons_self _ _)
      have hl₂ : ∀ r ∈ l₂, r ∈ t := by
        intro r hr2
        cases l₁ with
        | nil =>
          simp only [List.nil_append, List.cons.injEq, true_and] at hsplit
          rw [hsplit]
          exact hr2
        | cons x l₁ =>
          simp only [List.cons_append, List.cons.injEq] at hsplit
          rw [hsplit.2]
          simp [hr2]
      rw [hsplit] at hw hlast
      refine a.frontier_push bound current c (pq.toList q'') l₂ hgoal (Walk.right _ _ hw) ?_ hnot
        (fun r hr2 => hdisj r (hl₂ r hr2)) ?_ hsub
      · rw [List.getLast?_append_of_ne_nil _ (by simp)] at hlast
        exact hlast
      · have hlen := congrArg List.length hsplit
        simp only [List.length_cons, List.length_append] at hlen
        simp only [List.length_cons, Nat.cast_add, Nat.cast_one] at hb
        omega
    · by_cases hin : current.pos ∈ t
      · obtain ⟨l₁, l₂, hsplit, hnot⟩ := exists_last_occurrence current.pos t hin
        subst hsplit
        have hcur : current ∈ pq.toList q := hp.symm.subset (List.mem_cons_self _ _)
        have hcne : c ≠ [] := by
          intro hnil
          have h1 := hi.first hnil
          rw [h1, List.mem_singleton] at hcur hn
          exact hmn (hcur.trans hn.symm)
        have hh1 := hi.heur hcne current hcur
        have hh2 := hi.heur hcne n hn
        have hle := hmin n hn
        simp only [Node.getF, hh1, hh2] at hle
        have hpre : a.Walk ((n.pos :: l₁ ++ [current.pos]) ++ l₂) := by
          simpa using hw
        have hch := a.hpos_le_of_chain (l₁ ++ [current.pos]) n.pos current.pos
          (by simpa using (Walk.left _ _ hpre).1) (List.getLast?_concat (n.pos :: l₁))
        have hsuf : a.Walk ((n.pos :: l₁) ++ (current.pos :: l₂)) := by
          simpa using hw
        refine a.frontier_push bound current c (pq.toList q'') l₂ hgoal (Walk.right _ _ hsuf) ?_ hnot
          (fun r hr2 => hdisj r (by simp [hr2])) ?_ hsub
        · have : n.pos :: (l₁ ++ current.pos :: l₂) = (n.pos :: l₁) ++ (current.pos :: l₂) := by
            simp
          rw [this, List.getLast?_append_of_ne_nil _ (by simp)] at hlast
          exact hlast
        · simp only [List.length_cons, List.length_append, List.length_singleton,
            List.length_nil, Nat.cast_add, Nat.cast_one, Nat.cast_zero] at hb hch
          omega
      · have hn' : n ∈ pq.toList q' := by
          rcases List.mem_cons.1 (hp.subset hn) with h | h
          · exact absurd h.symm hmn
          · exact h
        refine ⟨n, hp''.symm.subset (List.mem_append_right _ hn'), n.pos :: t, hw, rfl, hlast, hb,
          ?_⟩
        intro r hr2
        simp only [List.tail_cons] at hr2
        simp only [List.map_append, List.map_cons, List.map_nil, List.mem_append,
          List.mem_singleton, not_or]
        refine ⟨hdisj r hr2, ?_⟩
        rintro rfl
        exact hin hr2

/-- While the goal can be reached from the start, the open list holds an entry on a
walk to the goal that is no longer than any given one. -/
theorem Reach.frontier {pq : OpenList} (hq : pq.Lawful) {a : AStar} (hc : a.Covers)
    {q : pq.Q} {c : List Node} (hr : Reach pq a q c)
    (w : List (Int × Int)) (hw : a.Walk w) (hhead : w.head? = some a.start.pos)
    (hlast : w.getLast? = some a.goal.pos) :
    a.Frontier (a.start.g + w.length) (pq.toList q) c := by
  induction hr with
  | init =>
    have h := (Reach.init : Reach pq a _ _).inv hq hc
    rw [h.first rfl]
    exact ⟨a.start, List.mem_singleton_self _, w, hw, hhead, hlast, le_refl _, by simp⟩
  | step hr hpop hgoal hexp ih =>
    exact Reach.frontier_step hq hc _ hr hpop hgoal hexp ih

/-- A node popped while the frontier property holds costs less than its bound. -/
theorem Reach.pop_cost {pq : OpenList} (hq : pq.Lawful) {a : AStar} (hc : a.Covers)
    {q q' : pq.Q} {c : List Node} {current : Node} (bound : Int)
    (hr : Reach pq a q c)
    (hpop : pq.pop q = some (current, q'))
    (hf : a.Frontier bound (pq.toList q) c) :
    current.g + 1 ≤ bound := by
  obtain ⟨hp, hmin⟩ := hq.pop_some q current q' hpop
  have hi := hr.inv hq hc
  obtain ⟨n, hn, l, hw, hhead, hlast, hb, _⟩ := hf
  have hcur : current ∈ pq.toList q := hp.symm.subset (List.mem_cons_self _ _)
  cases l with
  | nil => simp at hhead
  | cons p t =>
    simp only [List.head?_cons, Option.some.injEq] at hhead
    subst hhead
    simp only [List.length_cons, Nat.cast_add, Nat.cast_one] at hb
    by_cases hmn : current = n
    · subst hmn
      omega
    · have hcne : c ≠ [] := by
        intro hnil
        have h1 := hi.first hnil
        rw [h1, List.mem_singleton] at hcur hn
        exact hmn (hcur.trans hn.symm)
      have hh1 := hi.heur hcne current hcur
      have hh2 := hi.heur hcne n hn
      have hle := hmin n hn
      simp only [Node.getF, hh1, hh2] at hle
      have hch := a.hpos_le_of_chain t n.pos a.goal.pos hw.1 hlast
      rw [hpos_goal] at hch
      have h0 := a.hpos_nonneg current.pos
      omega

end AStar

/-! ## How a search ends -/

namespace AStar

theorem findPath_ending (pq : OpenList) (hq : pq.Lawful) (a : AStar) (hc : a.Covers) :
    ∃ path, a.findPath pq = .ok path ∧ Ending pq a path := by
  obtain ⟨path, hpath⟩ := a.findPath_returns pq hq hc
  refine ⟨path, hpath, ?_⟩
  rcases a.search_ok pq a.fuel _ [] path Reach.init hpath with
    ⟨q, c, hr, hpop, rfl⟩ | ⟨q, c, current, q', hr, hpop, hgoal, rfl⟩
  · exact Ending.exhausted q c hr hpop
  · exact Ending.found q q' c current hr hpop hgoal

/-- The node popped at the goal is the head of a trail. -/
theorem Reach.pop_trail {pq : OpenList} (hq : pq.Lawful) {a : AStar} (hc : a.Covers)
    {q q' : pq.Q} {c : List Node} {current : Node} (hr : Reach pq a q c)
    (hpop : pq.pop q = some (current, q')) :
    ∃ t, a.Trail current (current :: t) ∧ ((current :: t).map Node.pos).Nodup := by
  obtain ⟨hp, _⟩ := hq.pop_some q current q' hpop
  obtain ⟨l, hl, hnd, _⟩ := (hr.inv hq hc).trails current
    (hp.symm.subset (List.mem_cons_self _ _))
  obtain ⟨t, rfl⟩ := hl.head
  exact ⟨t, hl, hnd⟩

theorem reconstructPath_ne_nil (n : Node) : reconstructPath n ≠ [] := by
  obtain ⟨x, y, g, h, p⟩ := n
  cases p <;> simp [reconstructPath, backtrack]

theorem Trail.reconstructPath_eq {a : AStar} {n : Node} {l : List Node} (h : a.Trail n l)
    (hs : a.start.parent = none) : reconstructPath n = l.reverse := by
  rw [reconstructPath, h.backtrack_eq hs]

theorem Trail.mem_cases {a : AStar} {n : Node} {l : List Node} (h : a.Trail n l)
    {m : Node} (hm : m ∈ l) : m = a.start ∨ m ∈ l.dropLast := by
  have h1 := List.dropLast_append_getLast? a.start (by rw [h.getLast]; rfl)
  rw [← h1, List.mem_append, List.mem_singleton] at hm
  exact hm.symm

/-- The cells of a trail, read from the start, form a walk when the start is free. -/
theorem Trail.walk {a : AStar} {n : Node} {l : List Node} (h : a.Trail n l)
    (hfs : a.Free a.start.pos) :
    a.Walk (l.reverse.map Node.pos) ∧ (l.reverse.map Node.pos).head? = some a.start.pos ∧
      (l.reverse.map Node.pos).getLast? = some n.pos := by
  refine ⟨⟨?_, ?_⟩, ?_, ?_⟩
  · rw [List.chain'_map, List.chain'_reverse]
    exact h.chain.imp fun c p hcp => hcp.1.symm
  · intro p hp
    obtain ⟨m, hm, rfl⟩ := List.mem_map.1 hp
    rcases h.mem_cases (List.mem_reverse.1 hm) with rfl | hm'
    · exact hfs
    · exact (h.free m hm').1
  · rw [List.head?_map, List.head?_reverse, h.getLast]
    rfl
  · obtain ⟨t, rfl⟩ := h.head
    rw [List.getLast?_map, List.getLast?_reverse]
    rfl

/-- A search that ends with a path has popped, at the goal, the head of a trail that
visits distinct positions. -/
theorem Ending.trail {pq : OpenList} (hq : pq.Lawful) {a : AStar} (hc : a.Covers)
    {path : List Node} (he : Ending pq a path) :
    path = [] ∨ ∃ current t, a.Trail current (current :: t) ∧
      ((current :: t).map Node.pos).Nodup ∧
      (current.x = a.goal.x ∧ current.y = a.goal.y) ∧ path = reconstructPath current := by
  cases he with
  | exhausted q c hr hpop => exact Or.inl rfl
  | found q q' c current hr hpop hgoal =>
    obtain ⟨t, ht, hnd⟩ := hr.pop_trail hq hc hpop
    exact Or.inr ⟨current, t, ht, hnd, hgoal, rfl⟩

/-- While the goal can be reached the search does not end with an empty open list,
and the node it pops at the goal costs no more than any walk from the start to the
goal has steps. -/
theorem Ending.cost_le {pq : OpenList} (hq : pq.Lawful) {a : AStar} (hc : a.Covers)
    {path : List Node} (he : Ending pq a path)
    (w : List (Int × Int)) (hw : a.Walk w) (hhead : w.head? = some a.start.pos)
    (hlast : w.getLast? = some a.goal.pos) :
    ∃ current t, a.Trail current (current :: t) ∧
      (current.x = a.goal.x ∧ current.y = a.goal.y) ∧ path = reconstructPath current ∧
      t.length + 1 ≤ w.length := by
  cases he with
  | exhausted q c hr hpop =>
    obtain ⟨n, hn, _⟩ := hr.frontier hq hc w hw hhead hlast
    rw [hq.pop_none q hpop] at hn
    cases hn
  | found q q' c current hr hpop hgoal =>
    obtain ⟨t, ht, _⟩ := hr.pop_trail hq hc hpop
    have h1 := hr.pop_cost hq hc _ hpop (hr.frontier hq hc w hw hhead hlast)
    have h2 := ht.g_eq
    simp only [List.length_cons, Nat.cast_add, Nat.cast_one] at h2
    exact ⟨current, t, ht, hgoal, rfl, by omega⟩

/-- While the goal can be reached the search returns a path that is not empty. -/
theorem Ending.ne_nil {pq : OpenList} (hq : pq.Lawful) {a : AStar} (hc : a.Covers)
    {path : List Node} (he : Ending pq a path)
    (hreach : a.Reachable a.start.pos a.goal.pos) : path ≠ [] := by
  obtain ⟨w, hw, hh, hl⟩ := hreach
  obtain ⟨current, t, _, _, hp, _⟩ := he.cost_le hq hc w hw hh hl
  rw [hp]
  exact reconstructPath_ne_nil _

theorem Reachable.free_start {a : AStar} {s t : Int × Int} (h : a.Reachable s t) :
    a.Free s := by
  obtain ⟨w, hw, hh, _⟩ := h
  cases w with
  | nil => simp at hh
  | cons p l =>
    simp only [List.head?_cons, Option.some.injEq] at hh
    subst hh
    exact hw.2 _ (List.mem_cons_self _ _)

/-- The costs along a trail, read from the start, rise by one from that of the start
node. -/
theorem Trail.g_index {a : AStar} {n : Node} {l : List Node} (h : a.Trail n l) :
    ∀ (i : Nat) (m : Node), l.reverse[i]? = some m → m.g = a.start.g + i := by
  induction h with
  | start =>
    intro i m hm
    cases i with
    | zero =>
      simp only [List.reverse_cons, List.reverse_nil, List.nil_append, List.getElem?_cons_zero,
        Option.some.injEq] at hm
      subst hm
      simp
    | succ i => simp at hm
  | @step p l d hp hd hf ih =>
    intro i m hm
    rw [List.reverse_cons] at hm
    by_cases hi : i < l.reverse.length
    · rw [List.getElem?_append_left hi] at hm
      exact ih i m hm
    · rw [List.getElem?_append_right (by omega)] at hm
      have hlen : l.reverse.length = l.length := List.length_reverse l
      have hg := hp.g_eq
      cases hk : i - l.reverse.length with
      | zero =>
        rw [hk] at hm
        simp only [List.getElem?_cons_zero, Option.some.injEq] at hm
        subst hm
        rw [child_g]
        have : i = l.length := by omega
        subst this
        omega
      | succ k =>
        rw [hk] at hm
        simp at hm

theorem cell_mem (a : AStar) (x y v : Int) (h : a.cell x y = some v) :
    ∃ row ∈ a.obstacles, v ∈ row := by
  unfold cell at h
  split at h
  · cases h
  · rename_i row hrow
    exact ⟨row, List.getElem?_mem hrow, List.getElem?_mem h⟩

/-- On a grid without obstacles every cell inside the grid is free. -/
theorem free_of_open (a : AStar)
    (hopen : ∀ row ∈ a.obstacles, ∀ v ∈ row, v = 0) (p : Int × Int) (hp : a.InBounds p) :
    a.Free p := by
  refine ⟨hp, ?_⟩
  intro h1
  obtain ⟨row, hrow, hv⟩ := a.cell_mem _ _ _ h1
  have := hopen row hrow 1 hv
  omega

theorem step_toward (a : AStar) (p q : Int × Int) (n : Nat) (hp : a.InBounds p)
    (hq : a.InBounds q)
    (hd : Int.natAbs (p.1 - q.1) + Int.natAbs (p.2 - q.2) = n + 1) :
    ∃ r, a.InBounds r ∧ Adjacent p r ∧
      Int.natAbs (r.1 - q.1) + Int.natAbs (r.2 - q.2) = n := by
  obtain ⟨p1, p2⟩ := p
  obtain ⟨q1, q2⟩ := q
  simp only [InBounds] at hp hq
  simp only at hd
  by_cases h1 : p1 < q1
  · refine ⟨(p1 + 1, p2), ?_, ?_, ?_⟩
    · simp only [InBounds]; omega
    · simp only [Adjacent]; omega
    · simp only; omega
  · by_cases h2 : q1 < p1
    · refine ⟨(p1 - 1, p2), ?_, ?_, ?_⟩
      · simp only [InBounds]; omega
      · simp only [Adjacent]; omega
      · simp only; omega
    · by_cases h3 : p2 < q2
      · refine ⟨(p1, p2 + 1), ?_, ?_, ?_⟩
        · simp only [InBounds]; omega
        · simp only [Adjacent]; omega
        · simp only; omega
      · refine ⟨(p1, p2 - 1), ?_, ?_, ?_⟩
        · simp only [InBounds]; omega
        · simp only [Adjacent]; omega
        · simp only; omega

/-- Where every cell inside the grid is free, two cells inside the grid are joined by
a walk with as many steps as their Manhattan distance. -/
theorem exists_walk_of_open (a : AStar) (hfree : ∀ p, a.InBounds p → a.Free p) (n : Nat) :
    ∀ p q : Int × Int, a.InBounds p → a.InBounds q →
      Int.natAbs (p.1 - q.1) + Int.natAbs (p.2 - q.2) = n →
      ∃ w, a.Walk w ∧ w.head? = some p ∧ w.getLast? = some q ∧ w.length = n + 1 := by
  induction n with
  | zero =>
    intro p q hp _ hd
    have hpq : p = q := by
      obtain ⟨p1, p2⟩ := p
      obtain ⟨q1, q2⟩ := q
      simp only at hd
      simp only [Prod.mk.injEq]
      omega
    subst hpq
    refine ⟨[p], ⟨List.chain'_singleton _, ?_⟩, rfl, rfl, rfl⟩
    intro r hr
    rw [List.mem_singleton] at hr
    subst hr
    exact hfree _ hp
  | succ n ih =>
    intro p q hp hq hd
    obtain ⟨r, hr, hadj, hdr⟩ := a.step_toward p q n hp hq hd
    obtain ⟨w, hw, hhead, hlast, hlen⟩ := ih r q hr hq hdr
    cases w with
    | nil => simp at hhead
    | cons r' t =>
      simp only [List.head?_cons, Option.some.injEq] at hhead
      subst hhead
      refine ⟨p :: r' :: t, ⟨List.Chain'.cons hadj hw.1, ?_⟩, rfl, ?_, ?_⟩
      · intro s hs
        rcases List.mem_cons.1 hs with rfl | hs
        · exact hfree _ hp
        · exact hw.2 s hs
      · rw [List.getLast?_cons_cons]
        exact hlast
      · simp only [List.length_cons] at hlen ⊢
        omega

/-- A chain of adjacent cells that starts above a row and ends below it has a cell
in that row. -/
theorem exists_row_of_chain (r : Int) (l : List (Int × Int)) (s t : Int × Int)
    (hch : List.Chain' Adjacent (s :: l)) (hlast : (s :: l).getLast? = some t)
    (hs : s.2 < r) (ht : r < t.2) : ∃ p ∈ s :: l, p.2 = r := by
  induction l generalizing s with
  | nil =>
    simp only [List.getLast?_singleton, Option.some.injEq] at hlast
    subst hlast
    omega
  | cons p l ih =>
    rw [List.chain'_cons] at hch
    rw [List.getLast?_cons_cons] at hlast
    have hadj := hch.1
    simp only [Adjacent] at hadj
    by_cases hp : p.2 = r
    · exact ⟨p, by simp, hp⟩
    · obtain ⟨x, hx, hxr⟩ := ih p hch.2 hlast (by omega)
      exact ⟨x, List.mem_cons_of_mem _ hx, hxr⟩

/-- A walk that ends at a cell other than the one it starts at passes through a free
neighbour of its last cell. -/
theorem exists_neighbour_of_walk (a : AStar) (l : List (Int × Int)) (s t : Int × Int)
    (hw : a.Walk (s :: l)) (hlast : (s :: l).getLast? = some t) (hne : s ≠ t) :
    ∃ p, a.Free p ∧ Adjacent p t := by
  induction l generalizing s with
  | nil =>
    simp only [List.getLast?_singleton, Option.some.injEq] at hlast
    exact absurd hlast hne
  | cons p l ih =>
    have hch := List.chain'_cons.1 hw.1
    rw [List.getLast?_cons_cons] at hlast
    by_cases hp : p = t
    · subst hp
      exact ⟨s, hw.2 s (by simp), hch.1⟩
    · exact ih p (Walk.right [s] _ hw) hlast hp

/-- A queue that holds a single entry pops it and is left empty. -/
theorem pop_of_toList_eq_singleton {pq : OpenList} (hq : pq.Lawful) (q : pq.Q) (n : Node)
    (h : pq.toList q = [n]) : ∃ q', pq.pop q = some (n, q') ∧ pq.toList q' = [] := by
  cases hpop : pq.pop q with
  | none =>
    have := hq.pop_none q hpop
    rw [h] at this
    cases this
  | some r =>
    obtain ⟨m, q'⟩ := r
    obtain ⟨hp, _⟩ := hq.pop_some q m q' hpop
    rw [h] at hp
    have hlen := hp.length_eq
    rw [List.length_singleton, List.length_cons] at hlen
    have hnil : pq.toList q' = [] := List.length_eq_zero.1 (by omega)
    rw [hnil] at hp
    have hm : n = m := by
      have := hp.subset (List.mem_singleton_self n)
      simpa using this
    subst hm
    exact ⟨q', rfl, hnil⟩

theorem toList_push_empty {pq : OpenList} (hq : pq.Lawful) (n : Node) :
    pq.toList (pq.push pq.empty n) = [n] := by
  have hperm := hq.toList_push pq.empty n
  rw [hq.toList_empty] at hperm
  exact List.perm_singleton.1 hperm

/-- A search whose start node is at the goal returns at the first pop. -/
theorem findPath_of_start_at_goal (pq : OpenList) (hq : pq.Lawful) (a : AStar)
    (hgoal : a.start.x = a.goal.x ∧ a.start.y = a.goal.y) :
    a.findPath pq = .ok (reconstructPath a.start) := by
  obtain ⟨q', hpop, _⟩ := pop_of_toList_eq_singleton hq _ a.start (toList_push_empty hq a.start)
  have hfuel : a.fuel = 5 ^ a.cells + 1 := rfl
  rw [findPath, hfuel, search, hpop]
  simp only
  rw [if_pos hgoal]

end AStar

/-! ## Properties of `findPath` -/

namespace AStar

/-- C1 (optimality).  On a grid covered by the obstacle matrix, with a start node that
has no parent, if the goal can be reached from the start by a walk of free cells then
`findPath` returns a path that is itself such a walk from the start to the goal and
whose number of steps is at most that of every such walk.  (That start and goal are
inside the grid and unblocked follows from the walk; the cost of the start node plays
no part.) -/
theorem findPath_shortest (pq : OpenList) (hq : pq.Lawful) (a : AStar) (hc : a.Covers)
    (hs : a.start.parent = none) (hreach : a.Reachable a.start.pos a.goal.pos) :
    ∃ path, a.findPath pq = .ok path ∧ path ≠ [] ∧
      a.Walk (path.map Node.pos) ∧
      (path.map Node.pos).head? = some a.start.pos ∧
      (path.map Node.pos).getLast? = some a.goal.pos ∧
      ∀ w, a.Walk w → w.head? = some a.start.pos → w.getLast? = some a.goal.pos →
        path.length - 1 ≤ w.length - 1 := by
  obtain ⟨path, hpath, he⟩ := a.findPath_ending pq hq hc
  obtain ⟨w₀, hw₀, hh₀, hl₀⟩ := hreach
  have hfs : a.Free a.start.pos := by
    cases w₀ with
    | nil => simp at hh₀
    | cons p t =>
      simp only [List.head?_cons, Option.some.injEq] at hh₀
      subst hh₀
      exact hw₀.2 _ (List.mem_cons_self _ _)
  obtain ⟨current, t, ht, hgoal, hp, _⟩ := he.cost_le hq hc w₀ hw₀ hh₀ hl₀
  have hrev := ht.reconstructPath_eq hs
  obtain ⟨hwalk, hhead, hlast⟩ := ht.walk hfs
  refine ⟨path, hpath, ?_, ?_, ?_, ?_, ?_⟩
  · rw [hp]
    exact reconstructPath_ne_nil _
  · rw [hp, hrev]
    exact hwalk
  · rw [hp, hrev]
    exact hhead
  · rw [hp, hrev, hlast]
    simp only [Node.pos, hgoal.1, hgoal.2]
  · intro w hw hh hl
    obtain ⟨current', t', ht', _, hp', hlen⟩ := he.cost_le hq hc w hw hh hl
    rw [hp', ht'.reconstructPath_eq hs, List.length_reverse, List.length_cons]
    omega

/-- C2 (no-path signalling).  On a grid covered by the obstacle matrix, with a free
start cell, `findPath` returns, and the path it returns is empty exactly when no walk
of free cells leads from the start to the goal; in particular it is empty when the
start is not at the goal and no neighbour of the goal is free. -/
theorem findPath_nil_iff_unreachable (pq : OpenList) (hq : pq.Lawful) (a : AStar)
    (hc : a.Covers) (hfs : a.Free a.start.pos) :
    ∃ path, a.findPath pq = .ok path ∧
      (path = [] ↔ ¬ a.Reachable a.start.pos a.goal.pos) ∧
      (a.start.pos ≠ a.goal.pos →
        (∀ d ∈ directions, ¬ a.Free (a.goal.x + d.1, a.goal.y + d.2)) → path = []) := by
  obtain ⟨path, hpath, he⟩ := a.findPath_ending pq hq hc
  have hiff : path = [] ↔ ¬ a.Reachable a.start.pos a.goal.pos := by
    constructor
    · rintro hnil ⟨w, hw, hh, hl⟩
      obtain ⟨current, t, _, _, hp, _⟩ := he.cost_le hq hc w hw hh hl
      rw [hnil] at hp
      exact reconstructPath_ne_nil _ hp.symm
    · intro hno
      rcases he.trail hq hc with h | ⟨current, t, ht, _, hgoal, _⟩
      · exact h
      · exfalso
        obtain ⟨hwalk, hhead, hlast⟩ := ht.walk hfs
        refine hno ⟨_, hwalk, hhead, ?_⟩
        rw [hlast]
        simp only [Node.pos, hgoal.1, hgoal.2]
  refine ⟨path, hpath, hiff, ?_⟩
  intro hne hwall
  rw [hiff]
  rintro ⟨w, hw, hh, hl⟩
  cases w with
  | nil => simp at hh
  | cons s l =>
    simp only [List.head?_cons, Option.some.injEq] at hh
    subst hh
    obtain ⟨p, hp, hadj⟩ := a.exists_neighbour_of_walk l _ _ hw hl hne
    obtain ⟨d, hd, hpd⟩ := mem_directions_of_adjacent p a.goal.pos hadj
    apply hwall d hd
    rw [hpd] at hp
    exact hp

/-- C3 (step validity).  On a grid covered by the obstacle matrix, with a start node
that has no parent, every two consecutive nodes of the path `findPath` returns are one
unit apart along exactly one axis. -/
theorem findPath_steps_adjacent (pq : OpenList) (hq : pq.Lawful) (a : AStar) (hc : a.Covers)
    (hs : a.start.parent = none) :
    ∃ path, a.findPath pq = .ok path ∧
      List.Chain' (fun m n : Node => Int.natAbs (m.x - n.x) + Int.natAbs (m.y - n.y) = 1)
        path := by
  obtain ⟨path, hpath, he⟩ := a.findPath_ending pq hq hc
  refine ⟨path, hpath, ?_⟩
  rcases he.trail hq hc with h | ⟨current, t, ht, _, _, hp⟩
  · rw [h]
    exact List.chain'_nil
  · rw [hp, ht.reconstructPath_eq hs, List.chain'_reverse]
    exact ht.chain.imp fun c p hcp => hcp.1.symm

/-- C4 (obstacle avoidance).  On a grid covered by the obstacle matrix, with a start
node that has no parent and lies on a free cell, every node of the path `findPath`
returns lies inside the grid on a cell whose entry in the obstacle matrix is not 1. -/
theorem findPath_avoids_obstacles (pq : OpenList) (hq : pq.Lawful) (a : AStar)
    (hc : a.Covers) (hs : a.start.parent = none) (hfs : a.Free a.start.pos) :
    ∃ path, a.findPath pq = .ok path ∧
      ∀ n ∈ path, (0 ≤ n.x ∧ n.x < a.width ∧ 0 ≤ n.y ∧ n.y < a.height) ∧
        ∃ v, a.cell n.x n.y = some v ∧ v ≠ 1 := by
  obtain ⟨path, hpath, he⟩ := a.findPath_ending pq hq hc
  refine ⟨path, hpath, ?_⟩
  have hfree : ∀ n ∈ path, a.Free n.pos := by
    rcases he.trail hq hc with h | ⟨current, t, ht, _, _, hp⟩
    · rw [h]
      intro n hn
      cases hn
    · rw [hp, ht.reconstructPath_eq hs]
      intro n hn
      rcases ht.mem_cases (List.mem_reverse.1 hn) with rfl | hn'
      · exact hfs
      · exact (ht.free n hn').1
  intro n hn
  obtain ⟨hb, hcell⟩ := hfree n hn
  refine ⟨hb, ?_⟩
  obtain ⟨v, hv⟩ := a.cell_isSome hc n.x n.y hb
  refine ⟨v, hv, ?_⟩
  rintro rfl
  exact hcell hv

/-- C5 (path orientation).  On a grid covered by the obstacle matrix, with a start
node that has no parent, `findPath` returns a path that is not empty whenever the goal
can be reached from the start; and a non-empty path that it returns begins with the
start node, ends with a node at the goal, is what `reconstructPath` makes of that node,
and each of its nodes is the parent of the next. -/
theorem findPath_from_start_to_goal (pq : OpenList) (hq : pq.Lawful) (a : AStar)
    (hc : a.Covers) (hs : a.start.parent = none) :
    ∃ path, a.findPath pq = .ok path ∧
      (a.Reachable a.start.pos a.goal.pos → path ≠ []) ∧
      (path ≠ [] →
        path.head? = some a.start ∧
        (∃ last, path.getLast? = some last ∧ last.x = a.goal.x ∧ last.y = a.goal.y ∧
          path = reconstructPath last) ∧
        List.Chain' (fun m n : Node => n.parent = some m) path) := by
  obtain ⟨path, hpath, he⟩ := a.findPath_ending pq hq hc
  refine ⟨path, hpath, he.ne_nil hq hc, ?_⟩
  intro hne
  rcases he.trail hq hc with h | ⟨current, t, ht, _, hgoal, hp⟩
  · exact absurd h hne
  · have hrev := ht.reconstructPath_eq hs
    refine ⟨?_, ⟨current, ?_, hgoal.1, hgoal.2, hp⟩, ?_⟩
    · rw [hp, hrev, List.head?_reverse]
      exact ht.getLast
    · rw [hp, hrev, List.getLast?_reverse]
      rfl
    · rw [hp, hrev, List.chain'_reverse]
      exact ht.chain.imp fun c p hcp => hcp.2.2

/-- C6 (trivial search).  When the start node is a new node at the position `p` and the
goal is at `p` too, `findPath` returns exactly one node; it is at `p` and its cost `g`
is 0. -/
theorem findPath_start_eq_goal (pq : OpenList) (hq : pq.Lawful) (a : AStar) (p : Int × Int)
    (hstart : a.start = Node.new p.1 p.2) (hgoal : a.goal.pos = p) :
    ∃ n, a.findPath pq = .ok [n] ∧ n.x = p.1 ∧ n.y = p.2 ∧ n.g = 0 := by
  have hat : a.start.x = a.goal.x ∧ a.start.y = a.goal.y := by
    rw [hstart, ← hgoal]
    exact ⟨rfl, rfl⟩
  refine ⟨a.start, ?_, ?_, ?_, ?_⟩
  · rw [a.findPath_of_start_at_goal pq hq hat, reconstructPath,
      backtrack_of_parent_none a.start (by rw [hstart]; rfl)]
    rfl
  · rw [hstart]; rfl
  · rw [hstart]; rfl
  · rw [hstart]; rfl

/-- C7 (open-grid distance).  On a grid covered by an obstacle matrix whose entries are
all 0, with start and goal inside the grid and a start node that has no parent,
`findPath` returns a non-empty path whose number of steps is the Manhattan distance
between start and goal. -/
theorem findPath_open_grid (pq : OpenList) (hq : pq.Lawful) (a : AStar) (hc : a.Covers)
    (hs : a.start.parent = none)
    (hopen : ∀ row ∈ a.obstacles, ∀ v ∈ row, v = 0)
    (hsb : a.InBounds a.start.pos) (hgb : a.InBounds a.goal.pos) :
    ∃ path, a.findPath pq = .ok path ∧ path ≠ [] ∧
      path.length - 1 =
        Int.natAbs (a.start.x - a.goal.x) + Int.natAbs (a.start.y - a.goal.y) := by
  obtain ⟨path, hpath, he⟩ := a.findPath_ending pq hq hc
  have hfree := a.free_of_open hopen
  obtain ⟨w, hw, hh, hl, hlen⟩ :=
    a.exists_walk_of_open hfree _ a.start.pos a.goal.pos hsb hgb rfl
  obtain ⟨current, t, ht, hgoal, hp, hle⟩ := he.cost_le hq hc w hw hh hl
  have hrev := ht.reconstructPath_eq hs
  refine ⟨path, hpath, ?_, ?_⟩
  · rw [hp]
    exact reconstructPath_ne_nil _
  · obtain ⟨hwalk, hhead, hlast⟩ := ht.walk (hfree _ hsb)
    have hcur : current.pos = a.goal.pos := by
      simp only [Node.pos, hgoal.1, hgoal.2]
    rw [hcur] at hlast
    cases hrl : (current :: t).reverse.map Node.pos with
    | nil => simp at hrl
    | cons s l =>
      rw [hrl] at hwalk hhead hlast
      simp only [List.head?_cons, Option.some.injEq] at hhead
      subst hhead
      have hlow := a.hpos_le_of_chain l _ _ hwalk.1 hlast
      rw [hpos_goal] at hlow
      have hl1 := congrArg List.length hrl
      simp only [List.length_map, List.length_reverse, List.length_cons] at hl1
      rw [hp, hrev, List.length_reverse, List.length_cons]
      simp only [AStar.hpos, Node.pos] at hlow
      simp only [Node.pos] at hlen
      omega

/-- C8 (cost bookkeeping).  On a grid covered by the obstacle matrix, with a start
node that has no parent and cost 0, the node at index `i` of the path `findPath`
returns has cost `g = i`, and the cost of the last node is the number of steps of the
path.  Whenever the goal can be reached from the start the path is not empty, and its
last node, at the goal, has a cost of at least the Manhattan distance between start and
goal. -/
theorem findPath_costs (pq : OpenList) (hq : pq.Lawful) (a : AStar) (hc : a.Covers)
    (hs : a.start.parent = none) (hg : a.start.g = 0) :
    ∃ path, a.findPath pq = .ok path ∧
      (∀ (i : Nat) (n : Node), path[i]? = some n → n.g = i) ∧
      (∀ last, path.getLast? = some last → last.g = (path.length : Int) - 1) ∧
      (a.Reachable a.start.pos a.goal.pos →
        ∃ last, path.getLast? = some last ∧ last.x = a.goal.x ∧ last.y = a.goal.y ∧
          ((Int.natAbs (a.start.x - a.goal.x) + Int.natAbs (a.start.y - a.goal.y) : Nat) : Int)
            ≤ last.g) := by
  obtain ⟨path, hpath, he⟩ := a.findPath_ending pq hq hc
  have hidx : ∀ (i : Nat) (n : Node), path[i]? = some n → n.g = i := by
    rcases he.trail hq hc with h | ⟨current, t, ht, _, _, hp⟩
    · rw [h]
      intro i n hn
      simp at hn
    · rw [hp, ht.reconstructPath_eq hs]
      intro i n hn
      have := ht.g_index i n hn
      omega
  have hlastg : ∀ last, path.getLast? = some last → last.g = (path.length : Int) - 1 := by
    intro last hlast
    rw [List.getLast?_eq_getElem?] at hlast
    have h1 := hidx _ _ hlast
    have h2 : path.length - 1 < path.length := (List.getElem?_eq_some.1 hlast).1
    omega
  refine ⟨path, hpath, hidx, hlastg, ?_⟩
  intro hreach
  rcases he.trail hq hc with h | ⟨current, t, ht, _, hgoal, hp⟩
  · exact absurd h (he.ne_nil hq hc hreach)
  · have hrev := ht.reconstructPath_eq hs
    have hlast : path.getLast? = some current := by
      rw [hp, hrev, List.getLast?_reverse]
      rfl
    refine ⟨current, hlast, hgoal.1, hgoal.2, ?_⟩
    obtain ⟨hwalk, hhead, hlastw⟩ := ht.walk hreach.free_start
    have hcur : current.pos = a.goal.pos := by
      simp only [Node.pos, hgoal.1, hgoal.2]
    rw [hcur] at hlastw
    cases hrl : (current :: t).reverse.map Node.pos with
    | nil => simp at hrl
    | cons s l =>
      rw [hrl] at hwalk hhead hlastw
      simp only [List.head?_cons, Option.some.injEq] at hhead
      subst hhead
      have hlow := a.hpos_le_of_chain l _ _ hwalk.1 hlastw
      rw [hpos_goal] at hlow
      have hl1 := congrArg List.length hrl
      simp only [List.length_map, List.length_reverse, List.length_cons] at hl1
      have hgl := hlastg current hlast
      rw [hp, hrev, List.length_reverse, List.length_cons] at hgl
      simp only [AStar.hpos, Node.pos] at hlow
      rw [Nat.cast_add]
      push_cast at hgl
      omega

/-- C9 (routing through a gap).  On a grid covered by the obstacle matrix in which
every cell of row `r` other than `(gx, r)` is blocked, with a start node that has no
parent, start and goal lying on opposite sides of row `r`, every non-empty path that
`findPath` returns has a node at `(gx, r)`; and the path it returns is not empty
whenever the goal can be reached from the start. -/
theorem findPath_through_gap (pq : OpenList) (hq : pq.Lawful) (a : AStar) (hc : a.Covers)
    (hs : a.start.parent = none) (gx r : Int)
    (hrow : ∀ x, 0 ≤ x → x < a.width → x ≠ gx → a.cell x r = some 1)
    (hside : (a.start.y < r ∧ r < a.goal.y) ∨ (a.goal.y < r ∧ r < a.start.y)) :
    ∃ path, a.findPath pq = .ok path ∧
      (path ≠ [] → ∃ n ∈ path, n.x = gx ∧ n.y = r) ∧
      (a.Reachable a.start.pos a.goal.pos → path ≠ []) := by
  obtain ⟨path, hpath, he⟩ := a.findPath_ending pq hq hc
  refine ⟨path, hpath, ?_, he.ne_nil hq hc⟩
  intro hne
  rcases he.trail hq hc with h | ⟨current, t, ht, _, hgoal, hp⟩
  · exact absurd h hne
  · have hmem : ∃ n ∈ current :: t, n.y = r := by
      rcases hside with ⟨h1, h2⟩ | ⟨h1, h2⟩
      · have hch : List.Chain' Adjacent ((current :: t).reverse.map Node.pos) := by
          rw [List.chain'_map, List.chain'_reverse]
          exact ht.chain.imp fun c p hcp => hcp.1.symm
        cases hrl : (current :: t).reverse.map Node.pos with
        | nil => simp at hrl
        | cons s l =>
          have hhead : ((current :: t).reverse.map Node.pos).head? = some a.start.pos := by
            rw [List.head?_map, List.head?_reverse, ht.getLast]
            rfl
          have hlast : ((current :: t).reverse.map Node.pos).getLast? = some current.pos := by
            rw [List.getLast?_map, List.getLast?_reverse]
            rfl
          rw [hrl] at hch hhead hlast
          simp only [List.head?_cons, Option.some.injEq] at hhead
          subst hhead
          obtain ⟨p, hpm, hpr⟩ := exists_row_of_chain r l _ _ hch hlast h1
            (by simp only [Node.pos]; omega)
          rw [← hrl] at hpm
          obtain ⟨n, hn, rfl⟩ := List.mem_map.1 hpm
          exact ⟨n, List.mem_reverse.1 hn, hpr⟩
      · have hch : List.Chain' Adjacent ((current :: t).map Node.pos) := by
          rw [List.chain'_map]
          exact ht.chain.imp fun c p hcp => hcp.1
        have hlast : ((current :: t).map Node.pos).getLast? = some a.start.pos := by
          rw [List.getLast?_map, ht.getLast]
          rfl
        obtain ⟨p, hpm, hpr⟩ := exists_row_of_chain r (t.map Node.pos) current.pos _ hch hlast
          (by simp only [Node.pos]; omega) h2
        have hpm' : p ∈ (current :: t).map Node.pos := hpm
        obtain ⟨n, hn, rfl⟩ := List.mem_map.1 hpm'
        exact ⟨n, hn, hpr⟩
    obtain ⟨n, hn, hnr⟩ := hmem
    refine ⟨n, ?_, ?_, hnr⟩
    · rw [hp, ht.reconstructPath_eq hs]
      exact List.mem_reverse.2 hn
    · rcases ht.mem_cases hn with rfl | hn'
      · omega
      · obtain ⟨⟨hx0, hxw, _, _⟩, hcell⟩ := (ht.free n hn').1
        by_contra hx
        apply hcell
        simp only [Node.pos] at hx0 hxw ⊢
        rw [hnr]
        exact hrow n.x hx0 hxw hx

/-- C10, as amended (the goal is not free).  `findPath` checks neither endpoint; on a
grid covered by the obstacle matrix, when the goal is outside the grid or blocked and
the start is not at the goal, it returns the empty sequence. -/
theorem findPath_nil_of_goal_not_free (pq : OpenList) (hq : pq.Lawful) (a : AStar)
    (hc : a.Covers) (hg : ¬ a.Free a.goal.pos) (hne : a.start.pos ≠ a.goal.pos) :
    a.findPath pq = .ok [] := by
  obtain ⟨path, hpath, he⟩ := a.findPath_ending pq hq hc
  rcases he.trail hq hc with h | ⟨current, t, ht, _, hgoal, _⟩
  · rw [hpath, h]
  · exfalso
    have hpos : current.pos = a.goal.pos := by
      simp only [Node.pos, hgoal.1, hgoal.2]
    rcases ht.mem_cases (List.mem_cons_self _ _) with h | h
    · rw [h] at hpos
      exact hne hpos
    · have := (ht.free current h).1
      rw [hpos] at this
      exact hg this

end AStar

/-! ## The properties on sample searches -/

/-- Row 1 of `wallGrid` is blocked but for the cell in column 2. -/
theorem wallGrid_row (x : Int) (h0 : 0 ≤ x) (hw : x < wallGrid.width) (hne : x ≠ 2) :
    wallGrid.cell x 1 = some 1 := by
  have hw' : x < 3 := hw
  have hx : x = 0 ∨ x = 1 := by omega
  rcases hx with rfl | rfl <;> rfl

/-- The cells of `wallWalk` are a walk of free cells of `wallGrid`. -/
theorem wallGrid_walk : wallGrid.Walk wallWalk :=
  ⟨by simp [wallWalk, AStar.Adjacent], by decide⟩

/-- The path that the search of `wallGrid` returns with the list queue: the positions
and the costs `g` of its nodes. -/
theorem wallGrid_path (path : List Node) (h : wallGrid.findPath fifoQueue = .ok path) :
    path.map (fun n => (n.x, n.y, n.g)) =
      [(0, 0, 0), (1, 0, 1), (2, 0, 2), (2, 1, 3), (2, 2, 4), (1, 2, 5), (0, 2, 6)] := by
  have hev : (wallGrid.findPath fifoQueue).map (List.map fun n => (n.x, n.y, n.g)) =
      .ok [(0, 0, 0), (1, 0, 1), (2, 0, 2), (2, 1, 3), (2, 2, 4), (1, 2, 5), (0, 2, 6)] := rfl
  rw [h] at hev
  simpa [Except.map] using hev

theorem wallGrid_reachable : wallGrid.Reachable wallGrid.start.pos wallGrid.goal.pos :=
  ⟨wallWalk, wallGrid_walk, rfl, rfl⟩

/-- C1 on `wallGrid`: the path returned has at most the six steps of `wallWalk`. -/
theorem findPath_shortest_witness :
    fifoQueue.Lawful ∧ wallGrid.Covers ∧ wallGrid.start.parent = none ∧
      wallGrid.Reachable wallGrid.start.pos wallGrid.goal.pos ∧
      ∃ path, wallGrid.findPath fifoQueue = .ok path ∧ path.length - 1 ≤ 6 :=
  ⟨fifoQueue_lawful, by decide, rfl, ⟨wallWalk, wallGrid_walk, rfl, rfl⟩,
    (AStar.findPath_shortest fifoQueue fifoQueue_lawful wallGrid (by decide) rfl
      ⟨wallWalk, wallGrid_walk, rfl, rfl⟩).imp
      fun _ h => ⟨h.1, h.2.2.2.2.2 wallWalk wallGrid_walk rfl rfl⟩⟩

/-- C2 on `enclosedGoal`: the search for the walled-in goal returns the empty path. -/
theorem findPath_nil_iff_unreachable_witness :
    fifoQueue.Lawful ∧ enclosedGoal.Covers ∧ enclosedGoal.Free enclosedGoal.start.pos ∧
      ∃ path, enclosedGoal.findPath fifoQueue = .ok path ∧ path = [] :=
  ⟨fifoQueue_lawful, by decide, by decide,
    (AStar.findPath_nil_iff_unreachable fifoQueue fifoQueue_lawful enclosedGoal (by decide)
      (by decide)).imp
      fun _ h => ⟨h.1, h.2.2 (by decide) (by decide)⟩⟩

/-- C3 on `wallGrid`. -/
theorem findPath_steps_adjacent_witness :
    fifoQueue.Lawful ∧ wallGrid.Covers ∧ wallGrid.start.parent = none ∧
      ∃ path, wallGrid.findPath fifoQueue = .ok path ∧
        List.Chain' (fun m n : Node => Int.natAbs (m.x - n.x) + Int.natAbs (m.y - n.y) = 1)
          path :=
  ⟨fifoQueue_lawful, by decide, rfl,
    AStar.findPath_steps_adjacent fifoQueue fifoQueue_lawful wallGrid (by decide) rfl⟩

/-- C4 on `wallGrid`. -/
theorem findPath_avoids_obstacles_witness :
    fifoQueue.Lawful ∧ wallGrid.Covers ∧ wallGrid.start.parent = none ∧
      wallGrid.Free wallGrid.start.pos ∧
      ∃ path, wallGrid.findPath fifoQueue = .ok path ∧
        ∀ n ∈ path, (0 ≤ n.x ∧ n.x < 3 ∧ 0 ≤ n.y ∧ n.y < 3) ∧
          ∃ v, wallGrid.cell n.x n.y = some v ∧ v ≠ 1 :=
  ⟨fifoQueue_lawful, by decide, rfl, by decide,
    AStar.findPath_avoids_obstacles fifoQueue fifoQueue_lawful wallGrid (by decide) rfl
      (by decide)⟩

/-- C5 on `wallGrid`: the path returned runs from the start `(0, 0)` around the wall to
the goal `(0, 2)`. -/
theorem findPath_from_start_to_goal_witness :
    fifoQueue.Lawful ∧ wallGrid.Covers ∧ wallGrid.start.parent = none ∧
      ∃ path, wallGrid.findPath fifoQueue = .ok path ∧
        path.map (fun n => (n.x, n.y, n.g)) =
          [(0, 0, 0), (1, 0, 1), (2, 0, 2), (2, 1, 3), (2, 2, 4), (1, 2, 5), (0, 2, 6)] ∧
        path ≠ [] ∧
        path.head? = some (Node.new 0 0) ∧
        (∃ last, path.getLast? = some last ∧ last.x = 0 ∧ last.y = 2 ∧
          path = AStar.reconstructPath last) ∧
        List.Chain' (fun m n : Node => n.parent = some m) path := by
  refine ⟨fifoQueue_lawful, by decide, rfl, ?_⟩
  obtain ⟨path, hp, hne, hrest⟩ :=
    AStar.findPath_from_start_to_goal fifoQueue fifoQueue_lawful wallGrid (by decide) rfl
  exact ⟨path, hp, wallGrid_path path hp, hne wallGrid_reachable,
    hrest (hne wallGrid_reachable)⟩

/-- C6 on `sameCell`, whose start and goal are both at `(0, 0)`. -/
theorem findPath_start_eq_goal_witness :
    fifoQueue.Lawful ∧ sameCell.start = Node.new 0 0 ∧ sameCell.goal.pos = (0, 0) ∧
      ∃ n, sameCell.findPath fifoQueue = .ok [n] ∧ n.x = 0 ∧ n.y = 0 ∧ n.g = 0 :=
  ⟨fifoQueue_lawful, rfl, rfl,
    AStar.findPath_start_eq_goal fifoQueue fifoQueue_lawful sameCell (0, 0) rfl rfl⟩

/-- C7 on `openGrid`: from `(0, 0)` to `(4, 4)` the path returned has eight steps. -/
theorem findPath_open_grid_witness :
    fifoQueue.Lawful ∧ openGrid.Covers ∧ openGrid.start.parent = none ∧
      (∀ row ∈ openGrid.obstacles, ∀ v ∈ row, v = 0) ∧
      openGrid.InBounds openGrid.start.pos ∧ openGrid.InBounds openGrid.goal.pos ∧
      ∃ path, openGrid.findPath fifoQueue = .ok path ∧ path ≠ [] ∧ path.length - 1 = 8 :=
  ⟨fifoQueue_lawful, by decide, rfl, by decide, by decide, by decide,
    AStar.findPath_open_grid fifoQueue fifoQueue_lawful openGrid (by decide) rfl (by decide)
      (by decide) (by decide)⟩

/-- C8 on `wallGrid`: the nodes of the path returned have the costs 0 to 6, and the
last, at the goal `(0, 2)`, costs at least the Manhattan distance 2. -/
theorem findPath_costs_witness :
    fifoQueue.Lawful ∧ wallGrid.Covers ∧ wallGrid.start.parent = none ∧
      wallGrid.start.g = 0 ∧
      ∃ path, wallGrid.findPath fifoQueue = .ok path ∧
        path.map (fun n => (n.x, n.y, n.g)) =
          [(0, 0, 0), (1, 0, 1), (2, 0, 2), (2, 1, 3), (2, 2, 4), (1, 2, 5), (0, 2, 6)] ∧
        (∀ (i : Nat) (n : Node), path[i]? = some n → n.g = i) ∧
        (∀ last, path.getLast? = some last → last.g = (path.length : Int) - 1) ∧
        ∃ last, path.getLast? = some last ∧ last.x = 0 ∧ last.y = 2 ∧ (2 : Int) ≤ last.g := by
  refine ⟨fifoQueue_lawful, by decide, rfl, rfl, ?_⟩
  obtain ⟨path, hp, h1, h2, h3⟩ :=
    AStar.findPath_costs fifoQueue fifoQueue_lawful wallGrid (by decide) rfl rfl
  exact ⟨path, hp, wallGrid_path path hp, h1, h2, h3 wallGrid_reachable⟩

/-- C9 on `wallGrid`: the path returned is not empty and passes through the gap
`(2, 1)`, its fourth cell. -/
theorem findPath_through_gap_witness :
    fifoQueue.Lawful ∧ wallGrid.Covers ∧ wallGrid.start.parent = none ∧
      (∀ x, 0 ≤ x → x < wallGrid.width → x ≠ 2 → wallGrid.cell x 1 = some 1) ∧
      (wallGrid.start.y < 1 ∧ 1 < wallGrid.goal.y) ∧
      ∃ path, wallGrid.findPath fifoQueue = .ok path ∧
        path.map (fun n => (n.x, n.y, n.g)) =
          [(0, 0, 0), (1, 0, 1), (2, 0, 2), (2, 1, 3), (2, 2, 4), (1, 2, 5), (0, 2, 6)] ∧
        path ≠ [] ∧ ∃ n ∈ path, n.x = 2 ∧ n.y = 1 := by
  refine ⟨fifoQueue_lawful, by decide, rfl, wallGrid_row, by decide, ?_⟩
  obtain ⟨path, hp, h1, h2⟩ :=
    AStar.findPath_through_gap fifoQueue fifoQueue_lawful wallGrid (by decide) rfl 2 1
      wallGrid_row (Or.inl (by decide))
  exact ⟨path, hp, wallGrid_path path hp, h2 wallGrid_reachable, h1 (h2 wallGrid_reachable)⟩

/-- C10 (counterexample).  The start of `blockedStart` is blocked, and yet `findPath`
returns a path of two nodes that begins on it, whatever priority queue it runs on. -/
theorem findPath_blocked_start :
    ¬ blockedStart.Free blockedStart.start.pos ∧
      ∀ pq : OpenList, pq.Lawful →
        blockedStart.findPath pq =
          .ok [Node.new 0 0, ⟨1, 0, 1, 0, some (Node.new 0 0)⟩] := by
  refine ⟨by decide, ?_⟩
  intro pq hq
  obtain ⟨q₁, hpop₁, hnil₁⟩ := AStar.pop_of_toList_eq_singleton hq _ _
    (AStar.toList_push_empty hq blockedStart.start)
  obtain ⟨q₂, hexp, hperm⟩ := blockedStart.expand_ok pq hq (by decide) blockedStart.start
    ([] ++ [blockedStart.start]) AStar.directions q₁
  have hsucc : blockedStart.successors blockedStart.start ([] ++ [blockedStart.start])
      AStar.directions = [⟨1, 0, 1, 0, some (Node.new 0 0)⟩] := rfl
  rw [hsucc, hnil₁] at hperm
  obtain ⟨q₃, hpop₂, _⟩ := AStar.pop_of_toList_eq_singleton hq q₂ _ (List.perm_singleton.1 hperm)
  have hfuel : blockedStart.fuel = 24 + 1 + 1 := rfl
  rw [AStar.findPath, hfuel, AStar.search, hpop₁]
  simp only
  rw [if_neg (by decide), hexp]
  simp only
  rw [AStar.search, hpop₂]
  simp only
  rw [if_pos (by decide)]
  rfl

/-- C10, as amended, on `blockedGoal`: the search for the blocked goal returns the empty
sequence. -/
theorem findPath_nil_of_goal_not_free_witness :
    fifoQueue.Lawful ∧ blockedGoal.Covers ∧ ¬ blockedGoal.Free blockedGoal.goal.pos ∧
      blockedGoal.start.pos ≠ blockedGoal.goal.pos ∧
      blockedGoal.findPath fifoQueue = .ok [] :=
  ⟨fifoQueue_lawful, by decide, by decide, by decide,
    AStar.findPath_nil_of_goal_not_free fifoQueue fifoQueue_lawful blockedGoal (by decide)
      (by decide) (by decide)⟩

/-! ## The binary heap is a lawful queue -/

namespace StdHeap

theorem set_perm_cons_eraseIdx {α : Type} (l : List α) (i : Nat) (a : α) (h : i < l.length) :
    (l.set i a).Perm (a :: l.eraseIdx i) := by
  induction l generalizing i with
  | nil => simp at h
  | cons x t ih =>
    cases i with
    | zero => simp
    | succ i =>
      simp only [List.set_cons_succ, List.eraseIdx_cons_succ]
      have := ih i (by simpa using h)
      exact (List.Perm.cons x this).trans (List.Perm.swap _ _ _)

theorem perm_cons_eraseIdx {α : Type} (l : List α) (i : Nat) (a : α) (h : l[i]? = some a) :
    l.Perm (a :: l.eraseIdx i) := by
  induction l generalizing i with
  | nil => simp at h
  | cons x t ih =>
    cases i with
    | zero =>
      simp only [List.getElem?_cons_zero, Option.some.injEq] at h
      subst h
      simp
    | succ i =>
      simp only [List.getElem?_cons_succ] at h
      simp only [List.eraseIdx_cons_succ]
      exact (List.Perm.cons x (ih i h)).trans (List.Perm.swap _ _ _)

/-- Copying an element into a hole and moving the hole to the element keeps the
elements outside the hole. -/
theorem eraseIdx_set_perm {α : Type} (l : List α) (hole i : Nat) (a : α) (hne : hole ≠ i)
    (hh : hole < l.length) (hi : l[i]? = some a) :
    ((l.set hole a).eraseIdx i).Perm (l.eraseIdx hole) := by
  induction l generalizing hole i with
  | nil => simp at hh
  | cons x t ih =>
    cases hole with
    | zero =>
      cases i with
      | zero => exact absurd rfl hne
      | succ i =>
        simp only [List.getElem?_cons_succ] at hi
        simp only [List.set_cons_zero, List.eraseIdx_cons_succ, List.eraseIdx_cons_zero]
        exact (perm_cons_eraseIdx t i a hi).symm
    | succ hole =>
      cases i with
      | zero =>
        simp only [List.getElem?_cons_zero, Option.some.injEq] at hi
        subst hi
        simp only [List.set_cons_succ, List.eraseIdx_cons_zero, List.eraseIdx_cons_succ]
        exact set_perm_cons_eraseIdx t hole x (by simpa using hh)
      | succ i =>
        simp only [List.getElem?_cons_succ] at hi
        simp only [List.set_cons_succ, List.eraseIdx_cons_succ]
        exact List.Perm.cons x (ih hole i (by omega) (by simpa using hh) hi)

theorem getElem?_isSome_of_lt {α : Type} (l : List α) (i : Nat) (h : i < l.length) :
    ∃ a, l[i]? = some a :=
  ⟨l[i], List.getElem?_eq_getElem h⟩

theorem lt_length_of_getElem? {α : Type} {l : List α} {i : Nat} {a : α} (h : l[i]? = some a) :
    i < l.length := (List.getElem?_eq_some.1 h).1

theorem isHeap_of_heapBut_zero {v : List Node} (h : HeapBut v 0) : IsHeap v :=
  fun i a b hi ha hb => h.1 i a b hi (by omega) ha hb

theorem IsHeap.heapBut_leaf {v : List Node} (hv : IsHeap v) (hole : Nat) (value : Node)
    (hleaf : v.length ≤ 2 * hole + 1) : HeapBut (v.set hole value) hole := by
  constructor
  · intro i a b hi hne ha hb
    have hil : i < v.length := by
      have := lt_length_of_getElem? hb
      simpa using this
    have hp : (i - 1) / 2 ≠ hole := by omega
    rw [List.getElem?_set_ne (Ne.symm hp)] at ha
    rw [List.getElem?_set_ne (Ne.symm hne)] at hb
    exact hv i a b hi ha hb
  · intro c a b _ hc hpc _ hb
    have := lt_length_of_getElem? hb
    simp only [List.length_set] at this
    omega

end StdHeap

namespace StdHeap

/-- Moving the parent of the hole into the hole keeps the order that `HeapBut` asks
for, now around the parent. -/
theorem HeapBut.up {v : List Node} {hole : Nat} {value p : Node} (hpos : 0 < hole)
    (hlen : hole < v.length) (hp : v[(hole - 1) / 2]? = some p)
    (hlt : value.getF < p.getF) (hb : HeapBut (v.set hole value) hole) :
    HeapBut ((v.set hole p).set ((hole - 1) / 2) value) ((hole - 1) / 2) := by
  have hne : (hole - 1) / 2 ≠ hole := by omega
  have hplen : (hole - 1) / 2 < v.length := by omega
  have hup : (v.set hole value)[(hole - 1) / 2]? = some p := by
    rw [List.getElem?_set_ne (Ne.symm hne)]
    exact hp
  constructor
  · intro i a b hi hip ha hb'
    by_cases hih : i = hole
    · subst hih
      rw [List.getElem?_set, if_pos rfl, if_pos (by simpa using hplen)] at ha
      rw [List.getElem?_set_ne (Ne.symm hip), List.getElem?_set, if_pos rfl, if_pos hlen] at hb'
      simp only [Option.some.injEq] at ha hb'
      subst ha hb'
      omega
    · rw [List.getElem?_set_ne (Ne.symm hip), List.getElem?_set_ne (Ne.symm hih)] at hb'
      have hbu : (v.set hole value)[i]? = some b := by
        rw [List.getElem?_set_ne (Ne.symm hih)]
        exact hb'
      by_cases hpi : (i - 1) / 2 = (hole - 1) / 2
      · rw [hpi, List.getElem?_set, if_pos rfl, if_pos (by simpa using hplen)] at ha
        simp only [Option.some.injEq] at ha
        subst ha
        have := hb.1 i p b hi hih (by rw [hpi]; exact hup) hbu
        omega
      · rw [List.getElem?_set_ne (Ne.symm hpi)] at ha
        by_cases hph : (i - 1) / 2 = hole
        · rw [hph, List.getElem?_set, if_pos rfl, if_pos hlen] at ha
          simp only [Option.some.injEq] at ha
          subst ha
          exact hb.2 i p b hpos hi hph hup hbu
        · rw [List.getElem?_set_ne (Ne.symm hph)] at ha
          refine hb.1 i a b hi hih ?_ hbu
          rw [List.getElem?_set_ne (Ne.symm hph)]
          exact ha
  · intro c a b hppos hc hpc ha hb'
    have hgp1 : ((hole - 1) / 2 - 1) / 2 ≠ (hole - 1) / 2 := by omega
    have hgp2 : ((hole - 1) / 2 - 1) / 2 ≠ hole := by omega
    rw [List.getElem?_set_ne (Ne.symm hgp1), List.getElem?_set_ne (Ne.symm hgp2)] at ha
    have hau : (v.set hole value)[((hole - 1) / 2 - 1) / 2]? = some a := by
      rw [List.getElem?_set_ne (Ne.symm hgp2)]
      exact ha
    have hap := hb.1 ((hole - 1) / 2) a p hppos hne hau hup
    have hcp : c ≠ (hole - 1) / 2 := by omega
    rw [List.getElem?_set_ne (Ne.symm hcp)] at hb'
    by_cases hch : c = hole
    · subst hch
      rw [List.getElem?_set, if_pos rfl, if_pos hlen] at hb'
      simp only [Option.some.injEq] at hb'
      subst hb'
      exact hap
    · rw [List.getElem?_set_ne (Ne.symm hch)] at hb'
      have hbu : (v.set hole value)[c]? = some b := by
        rw [List.getElem?_set_ne (Ne.symm hch)]
        exact hb'
      have := hb.1 c p b hc hch (by rw [hpc]; exact hup) hbu
      omega

theorem set_set_perm (v : List Node) (hole i : Nat) (value p : Node) (hne : i ≠ hole)
    (hlen : hole < v.length) (hp : v[i]? = some p) :
    ((v.set hole p).set i value).Perm (v.set hole value) := by
  have hi : i < v.length := lt_length_of_getElem? hp
  have h1 := set_perm_cons_eraseIdx (v.set hole p) i value (by simpa using hi)
  have h2 := eraseIdx_set_perm v hole i p (Ne.symm hne) hlen hp
  have h3 := set_perm_cons_eraseIdx v hole value hlen
  exact h1.trans ((List.Perm.cons value h2).trans h3.symm)

/-- The loop of `std::__push_heap` restores the heap order and keeps the elements. -/
theorem pushHeap_spec (value : Node) (fuel : Nat) :
    ∀ (v : List Node) (hole : Nat), hole ≤ fuel → hole < v.length →
      HeapBut (v.set hole value) hole →
      IsHeap (pushHeap value fuel v hole) ∧
        (pushHeap value fuel v hole).Perm (v.set hole value) := by
  induction fuel with
  | zero =>
    intro v hole hf _ hb
    have h0 : hole = 0 := by omega
    subst h0
    exact ⟨isHeap_of_heapBut_zero hb, List.Perm.refl _⟩
  | succ fuel ih =>
    intro v hole hf hlen hb
    obtain ⟨p, hp⟩ := getElem?_isSome_of_lt v ((hole - 1) / 2) (by omega)
    simp only [pushHeap, hp]
    by_cases hcond : hole > 0 ∧ p.getF > value.getF
    · rw [if_pos hcond]
      have hne : (hole - 1) / 2 ≠ hole := by omega
      obtain ⟨h1, h2⟩ := ih (v.set hole p) ((hole - 1) / 2) (by omega) (by simp; omega)
        (HeapBut.up hcond.1 hlen hp hcond.2 hb)
      exact ⟨h1, h2.trans (set_set_perm v hole _ value p hne hlen hp)⟩
    · rw [if_neg hcond]
      refine ⟨?_, List.Perm.refl _⟩
      intro i a b hi ha hb'
      by_cases hih : i = hole
      · subst hih
        have hne : (i - 1) / 2 ≠ i := by omega
        rw [List.getElem?_set_ne (Ne.symm hne), hp] at ha
        rw [List.getElem?_set, if_pos rfl, if_pos hlen] at hb'
        simp only [Option.some.injEq] at ha hb'
        subst ha hb'
        have : ¬ (p.getF > value.getF) := fun h => hcond ⟨hi, h⟩
        omega
      · exact hb.1 i a b hi hih ha hb'

theorem IsHeap.push {v : List Node} (hv : IsHeap v) (n : Node) :
    IsHeap (push v n) ∧ (push v n).Perm (n :: v) := by
  have hset : (v ++ [n]).set v.length n = v ++ [n] := by
    rw [List.set_append_right _ _ (le_refl _)]
    simp
  have hb : HeapBut ((v ++ [n]).set v.length n) v.length := by
    rw [hset]
    constructor
    · intro i a b hi hne ha hb'
      have hil := lt_length_of_getElem? hb'
      simp only [List.length_append, List.length_singleton] at hil
      rw [List.getElem?_append_left (by omega)] at ha hb'
      exact hv i a b hi ha hb'
    · intro c a b _ hc hpc _ hb'
      have hil := lt_length_of_getElem? hb'
      simp only [List.length_append, List.length_singleton] at hil
      omega
  obtain ⟨h1, h2⟩ := pushHeap_spec n v.length (v ++ [n]) v.length (le_refl _) (by simp) hb
  rw [hset] at h2
  exact ⟨h1, h2.trans (List.perm_append_singleton n v)⟩

end StdHeap

namespace StdHeap

/-- Copying into the hole a child that comes after no other child of the hole keeps
the heap order. -/
theorem IsHeap.down {v : List Node} (hv : IsHeap v) {hole c : Nat} {x : Node}
    (hc : 0 < c) (hpc : (c - 1) / 2 = hole) (hx : v[c]? = some x)
    (hmin : ∀ i b, 0 < i → (i - 1) / 2 = hole → v[i]? = some b → x.getF ≤ b.getF) :
    IsHeap (v.set hole x) := by
  have hcl : c < v.length := lt_length_of_getElem? hx
  have hlen : hole < v.length := by omega
  obtain ⟨y, hy⟩ := getElem?_isSome_of_lt v hole hlen
  have hyx : y.getF ≤ x.getF := hv c y x hc (by rw [hpc]; exact hy) hx
  intro i a b hi ha hb
  by_cases hih : i = hole
  · subst hih
    have hne : (i - 1) / 2 ≠ i := by omega
    rw [List.getElem?_set_ne (Ne.symm hne)] at ha
    rw [List.getElem?_set, if_pos rfl, if_pos hlen] at hb
    simp only [Option.some.injEq] at hb
    subst hb
    have := hv i a y hi ha hy
    omega
  · rw [List.getElem?_set_ne (Ne.symm hih)] at hb
    by_cases hph : (i - 1) / 2 = hole
    · rw [hph, List.getElem?_set, if_pos rfl, if_pos hlen] at ha
      simp only [Option.some.injEq] at ha
      subst ha
      exact hmin i b hi hph hb
    · rw [List.getElem?_set_ne (Ne.symm hph)] at ha
      exact hv i a b hi ha hb

/-- The loop of `std::__adjust_heap` keeps the heap order and the elements outside the
hole, and leaves the hole where it has at most one child. -/
theorem sinkHole_spec (len fuel : Nat) :
    ∀ (v : List Node) (hole : Nat), v.length = len → IsHeap v → hole < len →
      len ≤ fuel + hole →
      IsHeap (sinkHole fuel v hole len).1 ∧ (sinkHole fuel v hole len).1.length = len ∧
        (sinkHole fuel v hole len).2 < len ∧
        ¬ ((sinkHole fuel v hole len).2 < (len - 1) / 2) ∧
        ((sinkHole fuel v hole len).1.eraseIdx (sinkHole fuel v hole len).2).Perm
          (v.eraseIdx hole) := by
  induction fuel with
  | zero =>
    intro v hole _ _ h1 h2
    omega
  | succ fuel ih =>
    intro v hole hlen hv hh hf
    simp only [sinkHole]
    by_cases hc : hole < (len - 1) / 2
    · rw [if_pos hc]
      obtain ⟨r, hr⟩ := getElem?_isSome_of_lt v (2 * (hole + 1)) (by omega)
      obtain ⟨l, hl⟩ := getElem?_isSome_of_lt v (2 * (hole + 1) - 1) (by omega)
      simp only [hr, hl]
      by_cases hgt : r.getF > l.getF
      · rw [if_pos hgt]
        have hheap : IsHeap (v.set hole l) := by
          refine hv.down (by omega) (by omega) hl ?_
          intro i b hi hpi hb
          have hi2 : i = 2 * (hole + 1) - 1 ∨ i = 2 * (hole + 1) := by omega
          rcases hi2 with rfl | rfl
          · rw [hl] at hb
            simp only [Option.some.injEq] at hb
            subst hb
            exact le_refl _
          · rw [hr] at hb
            simp only [Option.some.injEq] at hb
            subst hb
            omega
        obtain ⟨h1, h2, h3, h4, h5⟩ := ih (v.set hole l) (2 * (hole + 1) - 1) (by simpa using hlen)
          hheap (by omega) (by omega)
        exact ⟨h1, h2, h3, h4,
          h5.trans (eraseIdx_set_perm v hole _ l (by omega) (by omega) hl)⟩
      · rw [if_neg hgt]
        have hheap : IsHeap (v.set hole r) := by
          refine hv.down (by omega) (by omega) hr ?_
          intro i b hi hpi hb
          have hi2 : i = 2 * (hole + 1) - 1 ∨ i = 2 * (hole + 1) := by omega
          rcases hi2 with rfl | rfl
          · rw [hl] at hb
            simp only [Option.some.injEq] at hb
            subst hb
            omega
          · rw [hr] at hb
            simp only [Option.some.injEq] at hb
            subst hb
            exact le_refl _
        obtain ⟨h1, h2, h3, h4, h5⟩ := ih (v.set hole r) (2 * (hole + 1)) (by simpa using hlen)
          hheap (by omega) (by omega)
        exact ⟨h1, h2, h3, h4,
          h5.trans (eraseIdx_set_perm v hole _ r (by omega) (by omega) hr)⟩
    · rw [if_neg hc]
      exact ⟨hv, hlen, hh, hc, List.Perm.refl _⟩

/-- The step after the loop of `std::__adjust_heap` leaves the hole at a leaf. -/
theorem sinkLast_spec (v : List Node) (hole len : Nat) (hlen : v.length = len)
    (hv : IsHeap v) (hh : hole < len) (hc : ¬ (hole < (len - 1) / 2)) :
    IsHeap (sinkLast v hole len).1 ∧ (sinkLast v hole len).1.length = len ∧
      (sinkLast v hole len).2 < len ∧ len ≤ 2 * (sinkLast v hole len).2 + 1 ∧
      ((sinkLast v hole len).1.eraseIdx (sinkLast v hole len).2).Perm (v.eraseIdx hole) := by
  unfold sinkLast
  by_cases hcond : len % 2 = 0 ∧ hole = (len - 2) / 2
  · rw [if_pos hcond]
    obtain ⟨c, hcv⟩ := getElem?_isSome_of_lt v (2 * (hole + 1) - 1) (by omega)
    simp only [hcv]
    have hheap : IsHeap (v.set hole c) := by
      refine hv.down (by omega) (by omega) hcv ?_
      intro i b hi hpi hb
      have hil := lt_length_of_getElem? hb
      have hi2 : i = 2 * (hole + 1) - 1 := by omega
      subst hi2
      rw [hcv] at hb
      simp only [Option.some.injEq] at hb
      subst hb
      exact le_refl _
    refine ⟨hheap, by simpa using hlen, by omega, by omega, ?_⟩
    exact eraseIdx_set_perm v hole _ c (by omega) (by omega) hcv
  · rw [if_neg hcond]
    exact ⟨hv, hlen, hh, by omega, List.Perm.refl _⟩

/-- The call `std::__adjust_heap(first, 0, len, value, comp)` on a heap puts `value`
in the place of the first element and restores the heap order. -/
theorem adjustHeap_spec (v : List Node) (value : Node) (hv : IsHeap v) (hpos : 0 < v.length) :
    IsHeap (adjustHeap v v.length value) ∧
      (adjustHeap v v.length value).Perm (value :: v.eraseIdx 0) := by
  obtain ⟨h1, h2, h3, h4, h5⟩ := sinkHole_spec v.length v.length v 0 rfl hv hpos (by omega)
  obtain ⟨k1, k2, k3, k4, k5⟩ := sinkLast_spec _ _ v.length h2 h1 h3 h4
  unfold adjustHeap
  simp only
  obtain ⟨m1, m2⟩ := pushHeap_spec value _ _ _ (le_refl _) (by rw [k2]; exact k3)
    (k1.heapBut_leaf _ value (by rw [k2]; exact k4))
  refine ⟨m1, m2.trans ?_⟩
  refine (set_perm_cons_eraseIdx _ _ value (by rw [k2]; exact k3)).trans ?_
  exact List.Perm.cons value (k5.trans h5)

/-- The first element of a heap has the least `getF`. -/
theorem IsHeap.first_le {v : List Node} (hv : IsHeap v) {top : Node} (htop : v[0]? = some top) :
    ∀ (i : Nat) (b : Node), v[i]? = some b → top.getF ≤ b.getF := by
  intro i
  induction i using Nat.strong_induction_on with
  | _ i ih =>
    intro b hb
    by_cases hi : i = 0
    · subst hi
      rw [htop] at hb
      simp only [Option.some.injEq] at hb
      subst hb
      exact le_refl _
    · have hil := lt_length_of_getElem? hb
      obtain ⟨a, ha⟩ := getElem?_isSome_of_lt v ((i - 1) / 2) (by omega)
      have h1 := ih ((i - 1) / 2) (by omega) a ha
      have h2 := hv i a b (by omega) ha hb
      omega

theorem IsHeap.dropLast {v : List Node} (hv : IsHeap v) : IsHeap v.dropLast := by
  intro i a b hi ha hb
  rw [List.getElem?_dropLast] at ha hb
  split at ha
  · split at hb
    · exact hv i a b hi ha hb
    · cases hb
  · cases ha

/-- The calls `top()` and `pop()` on a heap remove an element of least `getF` and leave
a heap of the other elements. -/
theorem IsHeap.pop {v v' : List Node} {top : Node} (hv : IsHeap v)
    (h : pop v = some (top, v')) :
    v.Perm (top :: v') ∧ IsHeap v' ∧ ∀ m ∈ v, top.getF ≤ m.getF := by
  cases v with
  | nil => simp [StdHeap.pop] at h
  | cons t rest =>
    have hmin : ∀ m ∈ t :: rest, t.getF ≤ m.getF := by
      intro m hm
      obtain ⟨i, hi⟩ := List.getElem?_of_mem hm
      exact hv.first_le (List.getElem?_cons_zero) i m hi
    simp only [StdHeap.pop] at h
    cases hlast : rest.getLast? with
    | none =>
      rw [hlast] at h
      simp only [Option.some.injEq, Prod.mk.injEq] at h
      obtain ⟨rfl, rfl⟩ := h
      have hnil : rest = [] := List.getLast?_eq_none_iff.1 hlast
      subst hnil
      refine ⟨List.Perm.refl _, ?_, hmin⟩
      intro i a b _ _ hb
      simp at hb
    | some value =>
      rw [hlast] at h
      simp only [Option.some.injEq, Prod.mk.injEq] at h
      obtain ⟨rfl, rfl⟩ := h
      have hrest : rest.dropLast ++ [value] = rest :=
        List.dropLast_append_getLast? value (by rw [hlast]; rfl)
      have hne : rest ≠ [] := by
        rintro rfl
        simp at hlast
      have hdl : (t :: rest).dropLast = t :: rest.dropLast := by
        cases rest with
        | nil => exact absurd rfl hne
        | cons _ _ => rfl
      have hlen : rest.length = ((t :: rest).dropLast).length := by
        rw [hdl, List.length_cons, List.length_dropLast]
        have := List.length_pos.2 hne
        omega
      rw [hlen]
      obtain ⟨h1, h2⟩ := adjustHeap_spec (t :: rest).dropLast value hv.dropLast (by rw [hdl]; simp)
      refine ⟨?_, h1, hmin⟩
      refine List.Perm.cons t ?_
      refine List.Perm.trans ?_ h2.symm
      rw [hdl, List.eraseIdx_cons_zero]
      conv_lhs => rw [← hrest]
      exact List.perm_append_singleton value _

theorem Built.isHeap {v : List Node} (h : Built v) : IsHeap v := by
  induction h with
  | empty =>
    intro i a b _ _ hb
    simp at hb
  | push n _ ih => exact (ih.push n).1
  | pop _ hp ih => exact (ih.pop hp).2.1

end StdHeap

theorem heapQueue_pop_eq (q : heapQueue.Q) :
    (heapQueue.pop q).map (fun r => (r.1, heapQueue.toList r.2)) = StdHeap.pop q.1 := by
  show Option.map _ (match h : StdHeap.pop q.1 with
    | none => none
    | some (top, v') => some (top, (⟨v', StdHeap.Built.pop q.2 h⟩ : heapQueue.Q))) = _
  split
  · rename_i h
    exact h.symm
  · rename_i top v' h
    exact h.symm

theorem heapQueue_lawful : heapQueue.Lawful where
  toList_empty := rfl
  toList_push := fun q n => (q.2.isHeap.push n).2
  pop_none := by
    intro q h
    have h1 := heapQueue_pop_eq q
    rw [h] at h1
    have h2 : StdHeap.pop q.1 = none := h1.symm
    cases hq : q.1 with
    | nil => exact hq
    | cons t rest =>
      rw [hq] at h2
      simp only [StdHeap.pop] at h2
      split at h2 <;> cases h2
  pop_some := by
    intro q n q' h
    have h1 := heapQueue_pop_eq q
    rw [h] at h1
    exact ⟨(q.2.isHeap.pop h1.symm).1, (q.2.isHeap.pop h1.symm).2.2⟩

/-! ## The obstacle generator -/

theorem mem_squareCells (x y size : Int) (c : Int × Int) :
    c ∈ squareCells x y size ↔
      ∃ dx dy : Nat, dx < size.toNat ∧ dy < size.toNat ∧ c = (x + dx, y + dy) := by
  unfold squareCells
  rw [List.mem_flatMap]
  constructor
  · rintro ⟨dx, hdx, hc⟩
    obtain ⟨dy, hdy, rfl⟩ := List.mem_map.1 hc
    exact ⟨dx, dy, List.mem_range.1 hdx, List.mem_range.1 hdy, rfl⟩
  · rintro ⟨dx, dy, hdx, hdy, rfl⟩
    exact ⟨dx, List.mem_range.2 hdx, List.mem_map.2 ⟨dy, List.mem_range.2 hdy, rfl⟩⟩

theorem overlapsStartOrGoal_eq_false (x y size : Int) (start goal : Node)
    (h : overlapsStartOrGoal x y size start goal = false) :
    start.pos ∉ squareCells x y size ∧ goal.pos ∉ squareCells x y size := by
  simp only [overlapsStartOrGoal, List.any_eq_false, decide_eq_true_eq] at h
  constructor
  · intro hm
    exact h _ hm (Or.inl ⟨rfl, rfl⟩)
  · intro hm
    exact h _ hm (Or.inr ⟨rfl, rfl⟩)

theorem markCell_spec (grid grid' : List (List Int)) (c : Int × Int)
    (h : markCell grid c = some grid') :
    ∀ x y, gridCell grid' x y = if (x, y) = c then some 1 else gridCell grid x y := by
  obtain ⟨cx, cy⟩ := c
  unfold markCell at h
  simp only at h
  split at h
  · cases h
  · rename_i hneg
    split at h
    · cases h
    · rename_i row hrow
      split at h
      · rename_i hlt
        simp only [Option.some.injEq] at h
        subst h
        have hcy : cy.toNat < grid.length := (List.getElem?_eq_some.1 hrow).1
        intro x y
        unfold gridCell
        by_cases hxy : x < 0 ∨ y < 0
        · rw [if_pos hxy, if_pos hxy, if_neg]
          simp only [Prod.mk.injEq]
          omega
        · rw [if_neg hxy, if_neg hxy]
          by_cases hy : y = cy
          · subst hy
            rw [List.getElem?_set, if_pos rfl, if_pos hcy, hrow]
            simp only
            by_cases hx : x = cx
            · subst hx
              rw [List.getElem?_set, if_pos rfl, if_pos hlt, if_pos rfl]
            · have hne : cx.toNat ≠ x.toNat := by omega
              rw [List.getElem?_set_ne hne, if_neg]
              simp only [Prod.mk.injEq]
              omega
          · have hne : cy.toNat ≠ y.toNat := by omega
            rw [List.getElem?_set_ne hne, if_neg]
            simp only [Prod.mk.injEq]
            omega
      · cases h

theorem markCell_rect (grid grid' : List (List Int)) (c : Int × Int) (w h : Nat)
    (hr : Rect grid w h) (hm : markCell grid c = some grid') : Rect grid' w h := by
  unfold markCell at hm
  split at hm
  · cases hm
  · split at hm
    · cases hm
    · rename_i row hrow
      split at hm
      · simp only [Option.some.injEq] at hm
        subst hm
        refine ⟨by rw [List.length_set]; exact hr.1, ?_⟩
        intro r hmem
        rcases List.mem_or_eq_of_mem_set hmem with h1 | h1
        · exact hr.2 r h1
        · rw [h1, List.length_set]
          exact hr.2 row (List.getElem?_mem hrow)
      · cases hm

theorem markCell_isSome (grid : List (List Int)) (c : Int × Int) (w h : Nat)
    (hr : Rect grid w h) (hx0 : 0 ≤ c.1) (hxw : c.1 < w) (hy0 : 0 ≤ c.2) (hyh : c.2 < h) :
    ∃ grid', markCell grid c = some grid' := by
  unfold markCell
  rw [if_neg (by omega)]
  have hlt : c.2.toNat < grid.length := by
    rw [hr.1]
    omega
  rw [List.getElem?_eq_getElem hlt]
  simp only
  have hrow := hr.2 _ (List.getElem_mem hlt)
  rw [if_pos (by rw [hrow]; omega)]
  exact ⟨_, rfl⟩

theorem markCells_spec (cs : List (Int × Int)) :
    ∀ (grid grid' : List (List Int)), markCells cs grid = some grid' →
      ∀ x y, gridCell grid' x y = if (x, y) ∈ cs then some 1 else gridCell grid x y := by
  induction cs with
  | nil =>
    intro grid grid' h x y
    simp only [markCells, Option.some.injEq] at h
    subst h
    simp
  | cons c cs ih =>
    intro grid grid' h x y
    simp only [markCells] at h
    split at h
    · cases h
    · rename_i g₁ hg₁
      rw [ih g₁ grid' h x y, markCell_spec grid g₁ c hg₁ x y]
      by_cases h1 : (x, y) ∈ cs
      · rw [if_pos h1, if_pos (List.mem_cons_of_mem _ h1)]
      · rw [if_neg h1]
        by_cases h2 : (x, y) = c
        · rw [if_pos h2, if_pos (by rw [h2]; exact List.mem_cons_self _ _)]
        · rw [if_neg h2, if_neg]
          intro hmem
          rcases List.mem_cons.1 hmem with h3 | h3
          · exact h2 h3
          · exact h1 h3

theorem markCells_rect (cs : List (Int × Int)) (w h : Nat) :
    ∀ (grid grid' : List (List Int)), Rect grid w h → markCells cs grid = some grid' →
      Rect grid' w h := by
  induction cs with
  | nil =>
    intro grid grid' hr hm
    simp only [markCells, Option.some.injEq] at hm
    subst hm
    exact hr
  | cons c cs ih =>
    intro grid grid' hr hm
    simp only [markCells] at hm
    split at hm
    · cases hm
    · rename_i g₁ hg₁
      exact ih g₁ grid' (markCell_rect grid g₁ c w h hr hg₁) hm

theorem markCells_isSome (cs : List (Int × Int)) (w h : Nat) :
    ∀ (grid : List (List Int)), Rect grid w h →
      (∀ c ∈ cs, 0 ≤ c.1 ∧ c.1 < w ∧ 0 ≤ c.2 ∧ c.2 < h) →
      ∃ grid', markCells cs grid = some grid' := by
  induction cs with
  | nil =>
    intro grid _ _
    exact ⟨grid, rfl⟩
  | cons c cs ih =>
    intro grid hr hc
    obtain ⟨h1, h2, h3, h4⟩ := hc c (List.mem_cons_self _ _)
    obtain ⟨g₁, hg₁⟩ := markCell_isSome grid c w h hr h1 h2 h3 h4
    simp only [markCells, hg₁]
    exact ih g₁ (markCell_rect grid g₁ c w h hr hg₁) fun c' hc' =>
      hc c' (List.mem_cons_of_mem _ hc')

theorem placeObstacles_cons (width height size : Int) (start goal : Node) (remaining : Nat)
    (r₁ r₂ : Nat) (draws : List Nat) (grid : List (List Int)) (written : List (Int × Int)) :
    placeObstacles width height size start goal (remaining + 1) (r₁ :: r₂ :: draws) grid
        written =
      if width - size = 0 ∨ height - size = 0 then .error GenFault.divisionByZero
      else
        if overlapsStartOrGoal (Int.tmod r₁ (width - size)) (Int.tmod r₂ (height - size)) size
            start goal then
          placeObstacles width height size start goal (remaining + 1) draws grid written
        else
          match markCells
              (squareCells (Int.tmod r₁ (width - size)) (Int.tmod r₂ (height - size)) size)
              grid with
          | none => .error GenFault.outOfRange
          | some grid' =>
            placeObstacles width height size start goal remaining draws grid'
              (written ++
                squareCells (Int.tmod r₁ (width - size)) (Int.tmod r₂ (height - size)) size) := by
  simp only [placeObstacles]

theorem stopsWith_ok {grid grid' : List (List Int)} {written written' : List (Int × Int)}
    (h : StopsWith (.ok (grid, written)) grid' written') : grid' = grid ∧ written' = written := by
  rcases h with h | h
  · simp only [Except.ok.injEq, Prod.mk.injEq] at h
    exact ⟨h.1.symm, h.2.symm⟩
  · cases h

theorem stopsWith_outOfDraws {grid grid' : List (List Int)}
    {written written' : List (Int × Int)}
    (h : StopsWith (.error (GenFault.outOfDraws grid written)) grid' written') :
    grid' = grid ∧ written' = written := by
  rcases h with h | h
  · cases h
  · simp only [Except.error.injEq, GenFault.outOfDraws.injEq] at h
    exact ⟨h.1.symm, h.2.symm⟩

/-- What a run of the placing loop has done when it returns or runs out of draws: it
has assigned 1 to the cells it reports, each in a square drawn at random that holds
neither the start nor the goal, and has left every other cell as it was. -/
theorem placeObstacles_spec (width height size : Int) (start goal : Node) (n : Nat) :
    ∀ (draws : List Nat), draws.length ≤ n →
      ∀ (remaining : Nat) (grid : List (List Int)) (written : List (Int × Int))
        (grid' : List (List Int)) (written' : List (Int × Int)),
        StopsWith (placeObstacles width height size start goal remaining draws grid written)
          grid' written' →
        ∃ added, written' = written ++ added ∧
          (∀ x y, gridCell grid' x y = if (x, y) ∈ added then some 1 else gridCell grid x y) ∧
          start.pos ∉ added ∧ goal.pos ∉ added ∧
          ∀ c ∈ added, ∃ r₁ r₂ : Nat,
            c ∈ squareCells (Int.tmod r₁ (width - size)) (Int.tmod r₂ (height - size)) size := by
  have hnone : ∀ (grid grid' : List (List Int)) (written written' : List (Int × Int)),
      grid' = grid ∧ written' = written →
      ∃ added, written' = written ++ added ∧
        (∀ x y, gridCell grid' x y = if (x, y) ∈ added then some 1 else gridCell grid x y) ∧
        start.pos ∉ added ∧ goal.pos ∉ added ∧
        ∀ c ∈ added, ∃ r₁ r₂ : Nat,
          c ∈ squareCells (Int.tmod r₁ (width - size)) (Int.tmod r₂ (height - size)) size := by
    rintro grid grid' written written' ⟨rfl, rfl⟩
    exact ⟨[], by simp, by simp, by simp, by simp, by simp⟩
  induction n with
  | zero =>
    intro draws hlen remaining grid written grid' written' h
    have hnil : draws = [] := List.length_eq_zero.1 (by omega)
    subst hnil
    cases remaining with
    | zero =>
      simp only [placeObstacles] at h
      exact hnone _ _ _ _ (stopsWith_ok h)
    | succ remaining =>
      simp only [placeObstacles] at h
      exact hnone _ _ _ _ (stopsWith_outOfDraws h)
  | succ n ih =>
    intro draws hlen remaining grid written grid' written' h
    cases remaining with
    | zero =>
      simp only [placeObstacles] at h
      exact hnone _ _ _ _ (stopsWith_ok h)
    | succ remaining =>
      match draws, hlen, h with
      | [], _, h =>
        simp only [placeObstacles] at h
        exact hnone _ _ _ _ (stopsWith_outOfDraws h)
      | [_], _, h =>
        simp only [placeObstacles] at h
        exact hnone _ _ _ _ (stopsWith_outOfDraws h)
      | r₁ :: r₂ :: rest, hlen, h =>
        have hrest : rest.length ≤ n := by
          simp only [List.length_cons] at hlen
          omega
        rw [placeObstacles_cons] at h
        by_cases hz : width - size = 0 ∨ height - size = 0
        · rw [if_pos hz] at h
          rcases h with h | h <;> cases h
        · rw [if_neg hz] at h
          by_cases hov : overlapsStartOrGoal (Int.tmod r₁ (width - size))
              (Int.tmod r₂ (height - size)) size start goal = true
          · rw [if_pos hov] at h
            exact ih rest hrest _ _ _ _ _ h
          · rw [if_neg hov] at h
            cases hm : markCells
                (squareCells (Int.tmod r₁ (width - size)) (Int.tmod r₂ (height - size)) size)
                grid with
            | none =>
              rw [hm] at h
              rcases h with h | h <;> cases h
            | some g₁ =>
              rw [hm] at h
              obtain ⟨added, hw, hcells, hs, hg, hsq⟩ := ih rest hrest _ _ _ _ _ h
              obtain ⟨hs₁, hg₁⟩ := overlapsStartOrGoal_eq_false _ _ _ _ _
                (by simpa using hov)
              refine ⟨squareCells (Int.tmod r₁ (width - size)) (Int.tmod r₂ (height - size))
                size ++ added, ?_, ?_, ?_, ?_, ?_⟩
              · rw [hw, List.append_assoc]
              · intro x y
                rw [hcells x y, markCells_spec _ grid g₁ hm x y]
                by_cases h1 : (x, y) ∈ added
                · rw [if_pos h1, if_pos (List.mem_append_right _ h1)]
                · rw [if_neg h1]
                  by_cases h2 : (x, y) ∈ squareCells (Int.tmod r₁ (width - size))
                      (Int.tmod r₂ (height - size)) size
                  · rw [if_pos h2, if_pos (List.mem_append_left _ h2)]
                  · rw [if_neg h2, if_neg]
                    intro hmem
                    rcases List.mem_append.1 hmem with h3 | h3
                    · exact h2 h3
                    · exact h1 h3
              · intro hmem
                rcases List.mem_append.1 hmem with h3 | h3
                · exact hs₁ h3
                · exact hs h3
              · intro hmem
                rcases List.mem_append.1 hmem with h3 | h3
                · exact hg₁ h3
                · exact hg h3
              · intro c hc
                rcases List.mem_append.1 hc with h3 | h3
                · exact ⟨r₁, r₂, h3⟩
                · exact hsq c h3

/-- The cells of a square drawn for a size below the width and the height of the grid
lie inside the grid, off its last column and its last row. -/
theorem squareCells_bounds (width height size : Int) (r₁ r₂ : Nat) (c : Int × Int)
    (hs : 0 < size) (hw : size < width) (hh : size < height)
    (hc : c ∈ squareCells (Int.tmod r₁ (width - size)) (Int.tmod r₂ (height - size)) size) :
    0 ≤ c.1 ∧ c.1 ≤ width - 2 ∧ 0 ≤ c.2 ∧ c.2 ≤ height - 2 := by
  obtain ⟨dx, dy, hdx, hdy, rfl⟩ := (mem_squareCells _ _ _ _).1 hc
  have h1 := Int.tmod_nonneg (width - size) (Int.ofNat_nonneg r₁)
  have h2 := Int.tmod_lt_of_pos (r₁ : Int) (show 0 < width - size by omega)
  have h3 := Int.tmod_nonneg (height - size) (Int.ofNat_nonneg r₂)
  have h4 := Int.tmod_lt_of_pos (r₂ : Int) (show 0 < height - size by omega)
  simp only
  omega

/-- On a rectangular grid, for a size below its width and its height, the placing loop
writes no cell outside the grid and takes no remainder by zero: it returns or runs out
of draws. -/
theorem placeObstacles_safe (w h : Nat) (size : Int) (start goal : Node)
    (hs : 0 < size) (hw : size < w) (hh : size < h) (n : Nat) :
    ∀ (draws : List Nat), draws.length ≤ n →
      ∀ (remaining : Nat) (grid : List (List Int)) (written : List (Int × Int)),
        Rect grid w h →
        ∃ grid' written',
          StopsWith (placeObstacles w h size start goal remaining draws grid written)
            grid' written' := by
  induction n with
  | zero =>
    intro draws hlen remaining grid written _
    have hnil : draws = [] := List.length_eq_zero.1 (by omega)
    subst hnil
    cases remaining with
    | zero => exact ⟨grid, written, Or.inl (by simp only [placeObstacles])⟩
    | succ remaining => exact ⟨grid, written, Or.inr (by simp only [placeObstacles])⟩
  | succ n ih =>
    intro draws hlen remaining grid written hr
    cases remaining with
    | zero => exact ⟨grid, written, Or.inl (by simp only [placeObstacles])⟩
    | succ remaining =>
      match draws, hlen with
      | [], _ => exact ⟨grid, written, Or.inr (by simp only [placeObstacles])⟩
      | [_], _ => exact ⟨grid, written, Or.inr (by simp only [placeObstacles])⟩
      | r₁ :: r₂ :: rest, hlen =>
        have hrest : rest.length ≤ n := by
          simp only [List.length_cons] at hlen
          omega
        rw [placeObstacles_cons, if_neg (by omega)]
        split
        · exact ih rest hrest _ _ _ hr
        · obtain ⟨g₁, hg₁⟩ := markCells_isSome
            (squareCells (Int.tmod r₁ (w - size)) (Int.tmod r₂ (h - size)) size) w h grid hr
            (by
              intro c hc
              have := squareCells_bounds w h size r₁ r₂ c hs hw hh hc
              omega)
          rw [hg₁]
          simp only
          exact ih rest hrest _ _ _ (markCells_rect _ w h grid g₁ hr hg₁)

/-! ## Runs of the main loop -/

namespace AStar

/-- A search that returns with some fuel returns the same with more. -/
theorem search_mono (pq : OpenList) (a : AStar) (fuel : Nat) :
    ∀ (k : Nat) (q : pq.Q) (c path : List Node), a.search pq fuel q c = .ok path →
      a.search pq (fuel + k) q c = .ok path := by
  induction fuel with
  | zero =>
    intro k q c path h
    simp [search] at h
  | succ fuel ih =>
    intro k q c path h
    have hk : fuel + 1 + k = (fuel + k) + 1 := by omega
    rw [hk]
    simp only [search] at h ⊢
    split
    · rename_i hpop
      rw [hpop] at h
      exact h
    · rename_i current q' hpop
      rw [hpop] at h
      simp only at h
      split
      · rename_i hgoal
        rw [if_pos hgoal] at h
        exact h
      · rename_i hgoal
        rw [if_neg hgoal] at h
        split
        · rename_i e hexp
          rw [hexp] at h
          exact h
        · rename_i q'' hexp
          rw [hexp] at h
          exact ih k q'' _ path h

/-- The states that `passes` computes are states of the main loop. -/
theorem passes_reach (pq : OpenList) (a : AStar) (n : Nat) :
    ∀ (q q' : pq.Q) (c c' : List Node), Reach pq a q c →
      a.passes pq n q c = some (q', c') → Reach pq a q' c' := by
  induction n with
  | zero =>
    intro q q' c c' hr h
    simp only [passes, Option.some.injEq, Prod.mk.injEq] at h
    obtain ⟨rfl, rfl⟩ := h
    exact hr
  | succ n ih =>
    intro q q' c c' hr h
    simp only [passes] at h
    split at h
    · cases h
    · rename_i current q₁ hpop
      split at h
      · cases h
      · rename_i hgoal
        split at h
        · cases h
        · rename_i q₂ hexp
          exact ih q₂ q' _ c' (Reach.step hr hpop hgoal hexp) h

/-- The closed list grows by one node with every pass while the measure of the open
list falls: there are never more expanded nodes than the measure had at the start. -/
theorem Reach.closed_add_measure_le {pq : OpenList} (hq : pq.Lawful) {a : AStar}
    (hc : a.Covers) {q : pq.Q} {c : List Node} (hr : Reach pq a q c) :
    c.length + a.measure (pq.toList q) ≤ 5 ^ a.cells := by
  induction hr with
  | init =>
    rw [toList_push_empty hq]
    simp [measure, weight]
  | step hr hpop hgoal hexp ih =>
    have := Reach.measure_lt hq hc hr hpop hgoal hexp
    rw [List.length_append, List.length_singleton]
    omega

/-- Every node of a trail heads a trail of its own, which is part of the first. -/
theorem Trail.sub {a : AStar} {n : Node} {l : List Node} (h : a.Trail n l) :
    ∀ m ∈ l, ∃ l', a.Trail m l' := by
  induction h with
  | start =>
    intro m hm
    rw [List.mem_singleton] at hm
    subst hm
    exact ⟨_, Trail.start⟩
  | step d hp hd hf ih =>
    intro m hm
    rcases List.mem_cons.1 hm with rfl | hm
    · exact ⟨_, Trail.step d hp hd hf⟩
    · exact ih m hm

/-- The cells of a trail can be reached from the start when the start is free. -/
theorem Trail.reachable {a : AStar} {n : Node} {l : List Node} (h : a.Trail n l)
    (hfs : a.Free a.start.pos) : ∀ m ∈ l, a.Reachable a.start.pos m.pos := by
  intro m hm
  obtain ⟨l', hl'⟩ := h.sub m hm
  obtain ⟨hw, hh, hl⟩ := hl'.walk hfs
  exact ⟨_, hw, hh, hl⟩

end AStar

/-- The entry that `extractMin` removes is the first of least `getF`: the entries
before it have a larger `getF`, those after it none smaller. -/
theorem extractMin_first (l : List Node) (n : Node) (l' : List Node)
    (h : extractMin l = some (n, l')) :
    ∃ l₁ l₂, l = l₁ ++ n :: l₂ ∧ l' = l₁ ++ l₂ ∧ (∀ m ∈ l₁, n.getF < m.getF) ∧
      ∀ m ∈ l₂, n.getF ≤ m.getF := by
  induction l generalizing n l' with
  | nil => simp [extractMin] at h
  | cons a rest ih =>
    simp only [extractMin] at h
    split at h
    · rename_i hr
      have hnil := extractMin_none rest hr
      subst hnil
      simp only [Option.some.injEq, Prod.mk.injEq] at h
      obtain ⟨rfl, rfl⟩ := h
      exact ⟨[], [], rfl, rfl, by simp, by simp⟩
    · rename_i m rest' hr
      obtain ⟨l₁, l₂, h1, h2, h3, h4⟩ := ih m rest' hr
      have hmin := (extractMin_some rest m rest' hr).2
      split at h
      · rename_i hle
        simp only [Option.some.injEq, Prod.mk.injEq] at h
        obtain ⟨rfl, rfl⟩ := h
        refine ⟨[], rest, rfl, rfl, by simp, ?_⟩
        intro k hk
        exact le_trans hle (hmin k hk)
      · rename_i hle
        simp only [Option.some.injEq, Prod.mk.injEq] at h
        obtain ⟨rfl, rfl⟩ := h
        refine ⟨a :: l₁, l₂, by rw [h1]; rfl, by rw [h2]; rfl, ?_, h4⟩
        intro k hk
        rcases List.mem_cons.1 hk with rfl | hk
        · omega
        · exact h3 k hk

namespace AStar

theorem child_injective (a : AStar) (current : Node) (d₁ d₂ : Int × Int)
    (h : a.child current d₁ = a.child current d₂) : d₁ = d₂ := by
  have hx : (a.child current d₁).x = (a.child current d₂).x := by rw [h]
  have hy : (a.child current d₁).y = (a.child current d₂).y := by rw [h]
  simp only [child] at hx hy
  obtain ⟨a₁, b₁⟩ := d₁
  obtain ⟨a₂, b₂⟩ := d₂
  simp only [Prod.mk.injEq]
  simp only at hx hy
  omega

theorem successors_nodup (a : AStar) (current : Node) (closedList : List Node) :
    (a.successors current closedList directions).Nodup := by
  unfold successors
  refine List.Nodup.map_on ?_ ?_
  · intro d₁ _ d₂ _ h
    exact a.child_injective current d₁ d₂ h
  · exact List.Nodup.filter _ (by decide)

/-- No node is in the closed list twice or both in the closed and in the open list,
and every node of either list but the start node has its parent in the closed list. -/
theorem Reach.nodup {pq : OpenList} (hq : pq.Lawful) {a : AStar} (hc : a.Covers)
    {q : pq.Q} {c : List Node} (hr : Reach pq a q c) :
    (c ++ pq.toList q).Nodup ∧
      ∀ n ∈ c ++ pq.toList q, n = a.start ∨ ∃ p ∈ c, n.parent = some p := by
  induction hr with
  | init =>
    rw [toList_push_empty hq]
    refine ⟨by simp, ?_⟩
    intro n hn
    simp only [List.nil_append, List.mem_singleton] at hn
    exact Or.inl hn
  | @step q q' q'' c current hr hpop hgoal hexp ih =>
    obtain ⟨hp, _, hp''⟩ := Reach.step_perm hq hc hpop hexp
    obtain ⟨hnd, hpar⟩ := ih
    have hcur : current ∈ pq.toList q := hp.symm.subset (List.mem_cons_self _ _)
    have hcurc : current ∉ c := by
      intro hmem
      exact (List.nodup_append.1 hnd).2.2 hmem hcur
    obtain ⟨l, hl, _, _⟩ := (hr.inv hq hc).trails current hcur
    have hdepth := hl.depth_eq
    have hlpos : 0 < l.length := by
      obtain ⟨t, rfl⟩ := hl.head
      simp
    have hperm : ((c ++ [current]) ++ pq.toList q'').Perm
        (a.successors current (c ++ [current]) directions ++ (c ++ pq.toList q)) := by
      have h1 : ((c ++ [current]) ++ pq.toList q'').Perm
          ((c ++ [current]) ++ (a.successors current (c ++ [current]) directions ++
            pq.toList q')) := List.Perm.append_left _ hp''
      have h2 : (c ++ pq.toList q).Perm (c ++ (current :: pq.toList q')) :=
        List.Perm.append_left _ hp
      refine h1.trans ?_
      refine List.Perm.trans ?_ (List.Perm.append_left _ h2.symm)
      rw [List.append_assoc]
      exact (List.Perm.append_left c (List.perm_append_comm_assoc [current]
        (a.successors current (c ++ [current]) directions) (pq.toList q'))).trans
          (List.perm_append_comm_assoc c _ ([current] ++ pq.toList q'))
    have hnew : ∀ n ∈ a.successors current (c ++ [current]) directions,
        n ∉ c ++ pq.toList q := by
      intro n hn hmem
      obtain ⟨d, _, _, rfl⟩ := mem_successors hn
      rcases hpar _ hmem with h | ⟨p, hpc, hpp⟩
      · have := child_depth a current d
        rw [h] at this
        omega
      · rw [child_parent] at hpp
        simp only [Option.some.injEq] at hpp
        rw [hpp] at hcurc
        exact hcurc hpc
    constructor
    · rw [hperm.nodup_iff, List.nodup_append]
      exact ⟨a.successors_nodup current _, hnd, fun n hn hmem => hnew n hn hmem⟩
    · intro n hn
      rcases List.mem_append.1 (hperm.subset hn) with h | h
      · obtain ⟨d, _, _, rfl⟩ := mem_successors h
        exact Or.inr ⟨current, by simp, rfl⟩
      · rcases hpar n h with h' | ⟨p, hpc, hpp⟩
        · exact Or.inl h'
        · exact Or.inr ⟨p, List.mem_append_left _ hpc, hpp⟩

end AStar

/-! ## Further properties of the search and of the obstacle generator -/

namespace AStar

/-- C11 (termination).  On a grid covered by the obstacle matrix, for every start and
goal, reachable or not, the main loop of `findPath` returns: with the fuel `fuel`, and
with every larger fuel, the search gives the same result, a path or the empty
sequence, and never runs out of fuel. -/
theorem findPath_terminates (pq : OpenList) (hq : pq.Lawful) (a : AStar) (hc : a.Covers) :
    ∃ path, a.findPath pq = .ok path ∧
      ∀ fuel, a.fuel ≤ fuel → a.search pq fuel (pq.push pq.empty a.start) [] = .ok path := by
  obtain ⟨path, hpath⟩ := a.findPath_returns pq hq hc
  refine ⟨path, hpath, ?_⟩
  intro fuel hf
  have := a.search_mono pq a.fuel (fuel - a.fuel) _ _ path hpath
  rwa [Nat.add_sub_cancel' hf] at this

/-- C13, as amended (no node is expanded twice).  On a grid covered by the obstacle
matrix, whenever the main loop of `findPath` is at its head, no node is in the closed
list twice, and the closed list holds at most `5 ^ (width * height)` nodes; several of
them can be at the same position. -/
theorem closedList_nodup (pq : OpenList) (hq : pq.Lawful) (a : AStar) (hc : a.Covers)
    (q : pq.Q) (c : List Node) (hr : Reach pq a q c) :
    c.Nodup ∧ c.length ≤ 5 ^ (a.width.toNat * a.height.toNat) := by
  have h1 := hr.closed_add_measure_le hq hc
  have h2 := (hr.nodup hq hc).1
  simp only [cells] at h1
  exact ⟨(List.nodup_append.1 h2).1, by omega⟩

/-- C14 (closed positions are not reopened).  On a grid covered by the obstacle matrix,
the entries that the `for` loop over the directions adds to the open list while
`current` is expanded are children of `current` at positions that no node of the closed
list has. -/
theorem expand_pushes_unclosed (pq : OpenList) (hq : pq.Lawful) (a : AStar) (hc : a.Covers)
    (current : Node) (closedList : List Node) (openList openList' : pq.Q)
    (h : a.expand pq current closedList directions openList = .ok openList') :
    ∃ pushed, (pq.toList openList').Perm (pushed ++ pq.toList openList) ∧
      ∀ n ∈ pushed, n.parent = some current ∧
        ∀ m ∈ closedList, ¬ (m.x = n.x ∧ m.y = n.y) := by
  obtain ⟨q, hq1, hq2⟩ := a.expand_ok pq hq hc current closedList directions openList
  rw [h] at hq1
  simp only [Except.ok.injEq] at hq1
  subst hq1
  refine ⟨_, hq2, ?_⟩
  intro n hn
  obtain ⟨d, _, ⟨_, hnot⟩, rfl⟩ := mem_successors hn
  refine ⟨rfl, ?_⟩
  rintro m hm ⟨hx, hy⟩
  apply hnot
  rw [List.mem_map]
  refine ⟨m, hm, ?_⟩
  simp only [Node.pos, hx, hy]
  rfl

/-- A value of `int` is left as it is by the reduction to 32 bits. -/
theorem wrap32_eq {v : Int} (h1 : intMin ≤ v) (h2 : v ≤ intMax) : wrap32 v = v := by
  simp only [intMin, intMax] at h1 h2
  simp only [wrap32]
  omega

/-- Inside the range of `int` the computation of `heuristic` in `int` gives the value
of exact arithmetic. -/
theorem heuristic32_eq (a : AStar) (n : Node) (h : a.Fits n) :
    a.heuristic32 n = a.heuristic n := by
  simp only [Fits, intMax, heuristic] at h
  simp only [heuristic32, heuristic, abs32, wrap32]
  split_ifs <;> omega

/-- The computation of `heuristic` in `int` never gives more than the Manhattan
distance. -/
theorem heuristic32_le (a : AStar) (n : Node) : a.heuristic32 n ≤ a.heuristic n := by
  simp only [heuristic32, heuristic, abs32, wrap32]
  split_ifs <;> omega

/-- A cell of a grid whose width and height add up to at most `2 ^ 31 + 1` is, with a
goal inside the grid, in the range where `heuristic` does not overflow. -/
theorem fits_of_inBounds (a : AStar) (n : Node) (hn : a.InBounds n.pos)
    (hg : a.InBounds a.goal.pos) (hsize : a.width + a.height ≤ 2147483649) : a.Fits n := by
  simp only [InBounds, Node.pos] at hn hg
  simp only [Fits, intMax, heuristic]
  omega

/-- C15 (heuristic soundness).  For a node whose Manhattan distance to the goal is a
value of `int`, `heuristic`, computed in `int`, returns that distance
`|n.x - goal.x| + |n.y - goal.y|`; it is 0 at the goal; between a cell and each of its
four neighbours, both in that range, it differs by at most one; and it is at most the
number of steps of every walk of free cells from a cell to the goal. -/
theorem heuristic_sound (a : AStar) :
    (∀ n : Node, a.Fits n → a.heuristic32 n = |n.x - a.goal.x| + |n.y - a.goal.y|) ∧
    (∀ n : Node, n.x = a.goal.x → n.y = a.goal.y → a.heuristic32 n = 0) ∧
    (∀ (n : Node) (d : Int × Int), d ∈ directions → a.Fits n →
      a.Fits (Node.new (n.x + d.1) (n.y + d.2)) →
      a.heuristic32 n ≤ 1 + a.heuristic32 (Node.new (n.x + d.1) (n.y + d.2))) ∧
    (∀ (n : Node) (w : List (Int × Int)), a.Walk w → w.head? = some n.pos →
      w.getLast? = some a.goal.pos → a.heuristic32 n ≤ (w.length : Int) - 1) := by
  refine ⟨?_, ?_, ?_, ?_⟩
  · intro n hn
    rw [heuristic32_eq a n hn]
    simp only [heuristic, Int.natCast_natAbs]
  · intro n hx hy
    have hn : a.Fits n := by
      simp only [Fits, intMax, heuristic, hx, hy, sub_self, Int.natAbs_zero]
      decide
    rw [heuristic32_eq a n hn]
    simp [heuristic, hx, hy]
  · intro n d hd hn hq
    rw [heuristic32_eq a n hn, heuristic32_eq a _ hq]
    have hadj := adjacent_of_mem_directions n.x n.y d hd
    have := a.hpos_le_of_adjacent hadj.symm
    simp only [heuristic_eq_hpos, Node.pos, Node.new] at this ⊢
    omega
  · intro n w hw hh hl
    have hle := heuristic32_le a n
    cases w with
    | nil => simp at hh
    | cons p t =>
      simp only [List.head?_cons, Option.some.injEq] at hh
      subst hh
      have := a.hpos_le_of_chain t n.pos a.goal.pos hw.1 hl
      rw [hpos_goal] at this
      rw [heuristic_eq_hpos] at hle
      rw [List.length_cons]
      push_cast
      omega

/-- C15 on `wallGrid`, whose goal is `(0, 2)`: the cell `(1, 0)` and its neighbours
`(0, 0)` and `(2, 0)` are in the range of `int`, and `heuristic` gives 3, 2 and 4. -/
theorem heuristic_sound_witness :
    wallGrid.Fits (Node.new 1 0) ∧ wallGrid.Fits (Node.new (1 + 1) (0 + 0)) ∧
      wallGrid.heuristic32 (Node.new 1 0) = |1 - 0| + |0 - 2| ∧
      wallGrid.heuristic32 (Node.new 1 0) = 3 ∧
      wallGrid.heuristic32 (Node.new 0 2) = 0 ∧
      wallGrid.heuristic32 (Node.new 1 0) ≤ 1 + wallGrid.heuristic32 (Node.new (1 + 1) (0 + 0)) ∧
      wallGrid.heuristic32 (Node.new 0 0) ≤ ((wallWalk.length : Nat) : Int) - 1 :=
  ⟨by decide, by decide,
    (heuristic_sound wallGrid).1 (Node.new 1 0) (by decide),
    by decide,
    (heuristic_sound wallGrid).2.1 (Node.new 0 2) rfl rfl,
    (heuristic_sound wallGrid).2.2.1 (Node.new 1 0) (1, 0) (by decide) (by decide) (by decide),
    (heuristic_sound wallGrid).2.2.2 (Node.new 0 0) wallWalk wallGrid_walk rfl rfl⟩

/-- C15 as stated fails where the Manhattan distance is no value of `int`.  With the
goal `Node(INT_MIN, 0)` of `farGoal`, the cell `(1, 0)` is at distance 2147483649 and
its neighbour `(0, 0)` at distance 2147483648, neither of them a value of `int`;
`heuristic` returns 2147483647 for the one and -2147483648 for the other, so it is not
the Manhattan distance and the first is more than one plus the second. -/
theorem heuristic_overflows :
    ¬ farGoal.Fits (Node.new 1 0) ∧ ¬ farGoal.Fits (Node.new 0 0) ∧
    farGoal.heuristic32 (Node.new 1 0) = 2147483647 ∧
    |(Node.new 1 0).x - farGoal.goal.x| + |(Node.new 1 0).y - farGoal.goal.y| = 2147483649 ∧
    farGoal.heuristic32 (Node.new 0 0) = -2147483648 ∧
    |(Node.new 0 0).x - farGoal.goal.x| + |(Node.new 0 0).y - farGoal.goal.y| = 2147483648 ∧
    ¬ (∀ n : Node, farGoal.heuristic32 n = |n.x - farGoal.goal.x| + |n.y - farGoal.goal.y|) ∧
    ¬ (∀ (n : Node) (d : Int × Int), d ∈ directions →
      farGoal.heuristic32 n ≤ 1 + farGoal.heuristic32 (Node.new (n.x + d.1) (n.y + d.2))) := by
  refine ⟨by decide, by decide, by decide, by decide, by decide, by decide, ?_, ?_⟩
  · intro h
    exact absurd (h (Node.new 1 0)) (by decide)
  · intro h
    exact absurd (h (Node.new 1 0) (-1, 0) (by decide)) (by decide)

/-- C18 (returned paths are simple).  On a grid covered by the obstacle matrix, with a
start node that has no parent and cost 0, the path `findPath` returns visits no
position twice; and whenever the main loop is at its head, the parent chain of every
entry of the open list visits no position twice, so that its cost `g` is at most the
number of cells of the grid and, when the start is free, less than the number of cells
that can be reached from the start. -/
theorem findPath_simple (pq : OpenList) (hq : pq.Lawful) (a : AStar) (hc : a.Covers)
    (hs : a.start.parent = none) (hg : a.start.g = 0) :
    (∃ path, a.findPath pq = .ok path ∧ (path.map Node.pos).Nodup) ∧
    ∀ (q : pq.Q) (c : List Node), Reach pq a q c → ∀ n ∈ pq.toList q,
      ((reconstructPath n).map Node.pos).Nodup ∧
      n.g ≤ a.width.toNat * a.height.toNat ∧
      (a.Free a.start.pos → ∀ S : Finset (Int × Int),
        (∀ p, a.Reachable a.start.pos p → p ∈ S) → n.g + 1 ≤ S.card) := by
  constructor
  · obtain ⟨path, hpath, he⟩ := a.findPath_ending pq hq hc
    refine ⟨path, hpath, ?_⟩
    rcases he.trail hq hc with h | ⟨current, t, ht, hnd, _, hp⟩
    · rw [h]
      exact List.nodup_nil
    · rw [hp, ht.reconstructPath_eq hs, List.map_reverse, List.nodup_reverse]
      exact hnd
  · intro q c hr n hn
    obtain ⟨l, hl, hnd, _⟩ := (hr.inv hq hc).trails n hn
    have hlen := hl.length_le hnd
    have hgl := hl.g_eq
    refine ⟨?_, ?_, ?_⟩
    · rw [hl.reconstructPath_eq hs, List.map_reverse, List.nodup_reverse]
      exact hnd
    · simp only [cells] at hlen
      have : (l.length : Int) ≤ (a.width.toNat * a.height.toNat : Nat) + 1 := by
        exact_mod_cast hlen
      push_cast at this
      omega
    · intro hfs S hS
      have hsub : (l.map Node.pos).toFinset ⊆ S := by
        intro p hp
        rw [List.mem_toFinset] at hp
        obtain ⟨m, hm, rfl⟩ := List.mem_map.1 hp
        exact hS _ (hl.reachable hfs m hm)
      have hcard := Finset.card_le_card hsub
      rw [List.toFinset_card_of_nodup hnd, List.length_map] at hcard
      have : (l.length : Int) ≤ S.card := by exact_mod_cast hcard
      omega

end AStar

/-- C12 (the grid producer keeps the endpoints free).  When `generateObstacles`
returns, whatever the grid, the number and size of the obstacles and the random draws,
the cells of the start and of the goal are as they were before the call, and neither is
among the cells that were assigned 1. -/
theorem generateObstacles_keeps_endpoints (grid : List (List Int)) (numObstacles size : Int)
    (start goal : Node) (draws : List Nat) (grid' : List (List Int))
    (written : List (Int × Int))
    (h : generateObstacles grid numObstacles size start goal draws = .ok (grid', written)) :
    gridCell grid' start.x start.y = gridCell grid start.x start.y ∧
      gridCell grid' goal.x goal.y = gridCell grid goal.x goal.y ∧
      (start.x, start.y) ∉ written ∧ (goal.x, goal.y) ∉ written := by
  unfold generateObstacles at h
  split at h
  · cases h
  · rename_i row rest
    obtain ⟨added, hw, hcells, hs, hg, _⟩ :=
      placeObstacles_spec _ _ size start goal draws.length draws (le_refl _) _ _ _ _ _
        (Or.inl h)
    rw [List.nil_append] at hw
    subst hw
    have hs' : (start.x, start.y) ∉ written := hs
    have hg' : (goal.x, goal.y) ∉ written := hg
    refine ⟨?_, ?_, hs', hg'⟩
    · rw [hcells, if_neg hs']
    · rw [hcells, if_neg hg']

/-- C20 (obstacle placement bounds).  On a grid of `h` rows of `w` entries, for a size
above 0 and below `w` and `h`, `generateObstacles` writes no cell outside the grid and
takes no remainder by zero: it returns, or the draws run out.  In both cases every cell
it has assigned 1 to has its column between 0 and `w - 2` and its row between 0 and
`h - 2`, the cells assigned hold 1 and all others are as they were, so that no cell that
held 1 is cleared and the last column and the last row are untouched. -/
theorem generateObstacles_in_range (grid : List (List Int)) (w h : Nat) (hr : Rect grid w h)
    (numObstacles size : Int) (hs : 0 < size) (hw : size < w) (hh : size < h)
    (start goal : Node) (draws : List Nat) :
    ∃ grid' written,
      (generateObstacles grid numObstacles size start goal draws = .ok (grid', written) ∨
        generateObstacles grid numObstacles size start goal draws =
          .error (GenFault.outOfDraws grid' written)) ∧
      (∀ c ∈ written, 0 ≤ c.1 ∧ c.1 ≤ (w : Int) - 2 ∧ 0 ≤ c.2 ∧ c.2 ≤ (h : Int) - 2) ∧
      (∀ x y, gridCell grid' x y = if (x, y) ∈ written then some 1 else gridCell grid x y) ∧
      (∀ x y, gridCell grid x y = some 1 → gridCell grid' x y = some 1) ∧
      (∀ x y, x = (w : Int) - 1 ∨ y = (h : Int) - 1 →
        gridCell grid' x y = gridCell grid x y) := by
  cases grid with
  | nil =>
    have := hr.1
    simp only [List.length_nil] at this
    omega
  | cons row rest =>
    have hrow : row.length = w := hr.2 row (List.mem_cons_self _ _)
    have hlen : (row :: rest).length = h := hr.1
    have hgen : generateObstacles (row :: rest) numObstacles size start goal draws =
        placeObstacles w h size start goal numObstacles.toNat draws (row :: rest) [] := by
      simp only [generateObstacles, hrow, hlen]
    rw [hgen]
    obtain ⟨grid', written, hstop⟩ := placeObstacles_safe w h size start goal hs hw hh
      draws.length draws (le_refl _) numObstacles.toNat (row :: rest) [] hr
    obtain ⟨added, hwr, hcells, _, _, hsq⟩ :=
      placeObstacles_spec _ _ size start goal draws.length draws (le_refl _) _ _ _ _ _ hstop
    rw [List.nil_append] at hwr
    subst hwr
    have hb : ∀ c ∈ written, 0 ≤ c.1 ∧ c.1 ≤ (w : Int) - 2 ∧ 0 ≤ c.2 ∧ c.2 ≤ (h : Int) - 2 := by
      intro c hc
      obtain ⟨r₁, r₂, hmem⟩ := hsq c hc
      exact squareCells_bounds w h size r₁ r₂ c hs hw hh hmem
    refine ⟨grid', written, hstop, hb, hcells, ?_, ?_⟩
    · intro x y h1
      rw [hcells]
      split
      · rfl
      · exact h1
    · intro x y hxy
      rw [hcells, if_neg]
      intro hmem
      have := hb _ hmem
      simp only at this
      omega

/-- C16, as amended (the pop takes the root of the heap).  Each pop of the binary-heap
queue removes the first element of its vector, which has the least `getF` of all
entries, and leaves the other entries. -/
theorem heapQueue_pop_least (q q' : heapQueue.Q) (current : Node)
    (hpop : heapQueue.pop q = some (current, q')) :
    (∀ m ∈ heapQueue.toList q, current.getF ≤ m.getF) ∧
      (heapQueue.toList q).Perm (current :: heapQueue.toList q') ∧
      (heapQueue.toList q).head? = some current := by
  obtain ⟨hperm, hmin⟩ := heapQueue_lawful.pop_some q current q' hpop
  refine ⟨hmin, hperm, ?_⟩
  have h1 := heapQueue_pop_eq q
  rw [hpop] at h1
  have h2 : StdHeap.pop q.1 = some (current, q'.1) := h1.symm
  show (q.1).head? = some current
  cases hv : q.1 with
  | nil =>
    rw [hv] at h2
    simp [StdHeap.pop] at h2
  | cons t rest =>
    rw [hv] at h2
    simp only [StdHeap.pop] at h2
    split at h2
    · simp only [Option.some.injEq, Prod.mk.injEq] at h2
      rw [h2.1]
      rfl
    · simp only [Option.some.injEq, Prod.mk.injEq] at h2
      rw [h2.1]
      rfl

/-- C17 (the order in which the neighbours are examined).  The `for` loop over
`directions` examines the four neighbours of `(x, y)` in the order `(x - 1, y)`,
`(x + 1, y)`, `(x, y - 1)`, `(x, y + 1)`: left, right, up, down.  So the first pass of
the search from the middle of `centreGrid` pushes the cells `(0, 1)`, `(2, 1)`, `(1, 0)`,
`(1, 2)` in this order. -/
theorem directions_order :
    (∀ x y : Int, AStar.directions.map (fun d => (x + d.1, y + d.2)) =
      [(x - 1, y), (x + 1, y), (x, y - 1), (x, y + 1)]) ∧
    (centreGrid.openAfter fifoQueue 1).map (fun l => l.map Node.pos) =
      some [(0, 1), (2, 1), (1, 0), (1, 2)] := by
  refine ⟨?_, rfl⟩
  intro x y
  simp only [AStar.directions, List.map_cons, List.map_nil, add_zero, List.cons.injEq,
    Prod.mk.injEq, and_true, true_and]
  omega

/-- C13 (counterexample).  In the search of `crossing`, with the binary-heap queue as
with the list queue, the position `(2, 2)` is expanded twice: the closed list after seven
passes has two nodes there.  In the search of `crowded` seventeen nodes have been
expanded after seventeen passes, more than the grid has cells. -/
theorem findPath_expands_twice :
    (crossing.closedAfter heapQueue 7).map (fun c => c.map Node.pos) =
      some [(1, 1), (2, 1), (1, 2), (2, 0), (0, 2), (2, 2), (2, 2)] ∧
    (crossing.closedAfter fifoQueue 7).map (fun c => c.map Node.pos) =
      some [(1, 1), (2, 1), (1, 2), (2, 0), (0, 2), (2, 2), (2, 2)] ∧
    (crowded.closedAfter heapQueue 17).map (fun c => c.map Node.pos) =
      some [(1, 1), (2, 1), (1, 2), (2, 0), (0, 2), (2, 2), (3, 0), (0, 3), (2, 2), (1, 3),
        (3, 1), (3, 2), (3, 2), (2, 3), (3, 2), (2, 3), (3, 1)] :=
  ⟨rfl, rfl, rfl⟩

/-- C16 (counterexample).  In the search of `tieGrid` the binary-heap queue and the
list queue, which pops the oldest entry of least `getF`, pop the same nodes in the
first five passes.  The open list then holds, in the order of the pushes, entries at
`(1, 2)` and `(2, 2)` of the least `getF`, 3; the sixth pop of the binary-heap queue
takes the entry at `(2, 2)`, not the older one at `(1, 2)`. -/
theorem heapQueue_pop_not_fifo :
    tieGrid.closedAfter heapQueue 5 = tieGrid.closedAfter fifoQueue 5 ∧
    (tieGrid.openAfter fifoQueue 5).map (fun l => l.map Node.key) =
      some [(0, 0, 5), (1, 0, 5), (1, 2, 3), (2, 0, 5), (2, 2, 3), (2, 2, 3)] ∧
    (tieGrid.poppedAfter fifoQueue 5).map Node.key = some (1, 2, 3) ∧
    (tieGrid.poppedAfter heapQueue 5).map Node.key = some (2, 2, 3) :=
  ⟨rfl, rfl, rfl, rfl⟩

/-- C11 on `enclosedGoal`, whose goal is walled in, with the binary-heap queue. -/
theorem findPath_terminates_witness :
    heapQueue.Lawful ∧ enclosedGoal.Covers ∧
      ∃ path, enclosedGoal.findPath heapQueue = .ok path ∧
        ∀ fuel, enclosedGoal.fuel ≤ fuel →
          enclosedGoal.search heapQueue fuel (heapQueue.push heapQueue.empty enclosedGoal.start)
            [] = .ok path :=
  ⟨heapQueue_lawful, by decide,
    AStar.findPath_terminates heapQueue heapQueue_lawful enclosedGoal (by decide)⟩

/-- C12 on `emptyField`: the first square drawn covers the start and is drawn again;
the second is placed. -/
theorem generateObstacles_keeps_endpoints_witness :
    generateObstacles emptyField 1 2 (Node.new 0 0) (Node.new 3 3) [0, 0, 5, 3] =
        .ok ([[0, 0, 0, 0], [0, 1, 1, 0], [0, 1, 1, 0], [0, 0, 0, 0]],
          [(1, 1), (1, 2), (2, 1), (2, 2)]) ∧
      gridCell [[0, 0, 0, 0], [0, 1, 1, 0], [0, 1, 1, 0], [0, 0, 0, 0]] 0 0 =
        gridCell emptyField 0 0 ∧
      gridCell [[0, 0, 0, 0], [0, 1, 1, 0], [0, 1, 1, 0], [0, 0, 0, 0]] 3 3 =
        gridCell emptyField 3 3 ∧
      (0, 0) ∉ [((1 : Int), (1 : Int)), (1, 2), (2, 1), (2, 2)] ∧
      (3, 3) ∉ [((1 : Int), (1 : Int)), (1, 2), (2, 1), (2, 2)] :=
  ⟨rfl, generateObstacles_keeps_endpoints emptyField 1 2 (Node.new 0 0) (Node.new 3 3)
    [0, 0, 5, 3] _ _ rfl⟩

/-- C13, as amended, on the state of the search of `crossing` after seven passes. -/
theorem closedList_nodup_witness :
    heapQueue.Lawful ∧ crossing.Covers ∧
      ∃ q c, AStar.Reach heapQueue crossing q c ∧ c.length = 7 ∧
        c.Nodup ∧ c.length ≤ 5 ^ (crossing.width.toNat * crossing.height.toNat) := by
  refine ⟨heapQueue_lawful, by decide, ?_⟩
  have h7 : (crossing.passes heapQueue 7 (heapQueue.push heapQueue.empty crossing.start)
      []).map (fun s => s.2.length) = some 7 := rfl
  cases hp : crossing.passes heapQueue 7 (heapQueue.push heapQueue.empty crossing.start) [] with
  | none =>
    rw [hp] at h7
    cases h7
  | some s =>
    have hr := AStar.passes_reach heapQueue crossing 7 _ s.1 [] s.2 AStar.Reach.init hp
    rw [hp] at h7
    simp only [Option.map_some', Option.some.injEq] at h7
    exact ⟨s.1, s.2, hr, h7,
      AStar.closedList_nodup heapQueue heapQueue_lawful crossing (by decide) s.1 s.2 hr⟩

/-- C14 on the first expansion of the search of `wallGrid`. -/
theorem expand_pushes_unclosed_witness :
    fifoQueue.Lawful ∧ wallGrid.Covers ∧
      wallGrid.expand fifoQueue wallGrid.start [wallGrid.start] AStar.directions [] =
        .ok [⟨1, 0, 1, 3, some wallGrid.start⟩] ∧
      ∃ pushed, List.Perm [(⟨1, 0, 1, 3, some wallGrid.start⟩ : Node)] (pushed ++ []) ∧
        ∀ n ∈ pushed, n.parent = some wallGrid.start ∧
          ∀ m ∈ [wallGrid.start], ¬ (m.x = n.x ∧ m.y = n.y) :=
  ⟨fifoQueue_lawful, by decide, rfl,
    AStar.expand_pushes_unclosed fifoQueue fifoQueue_lawful wallGrid (by decide) wallGrid.start
      [wallGrid.start] [] [⟨1, 0, 1, 3, some wallGrid.start⟩] rfl⟩

/-- C16, as amended, on a queue of two entries. -/
theorem heapQueue_pop_least_witness :
    heapQueue.pop (heapQueue.push (heapQueue.push heapQueue.empty (Node.new 0 0))
        (Node.new 1 0)) = some (Node.new 0 0, heapQueue.push heapQueue.empty (Node.new 1 0)) ∧
      (∀ m ∈ [Node.new 0 0, Node.new 1 0], (Node.new 0 0).getF ≤ m.getF) ∧
      List.Perm [Node.new 0 0, Node.new 1 0] [Node.new 0 0, Node.new 1 0] ∧
      [Node.new 0 0, Node.new 1 0].head? = some (Node.new 0 0) :=
  ⟨rfl, heapQueue_pop_least
    (heapQueue.push (heapQueue.push heapQueue.empty (Node.new 0 0)) (Node.new 1 0))
    (heapQueue.push heapQueue.empty (Node.new 1 0)) (Node.new 0 0) rfl⟩

/-- C18 on `wallGrid`. -/
theorem findPath_simple_witness :
    fifoQueue.Lawful ∧ wallGrid.Covers ∧ wallGrid.start.parent = none ∧
      wallGrid.start.g = 0 ∧
      ∃ path, wallGrid.findPath fifoQueue = .ok path ∧ (path.map Node.pos).Nodup :=
  ⟨fifoQueue_lawful, by decide, rfl, rfl,
    (AStar.findPath_simple fifoQueue fifoQueue_lawful wallGrid (by decide) rfl rfl).1⟩

/-- C20 on `emptyField`, for one obstacle of size 2. -/
theorem generateObstacles_in_range_witness :
    Rect emptyField 4 4 ∧ (0 : Int) < 2 ∧ (2 : Int) < (4 : Nat) ∧
      ∃ grid' written,
        (generateObstacles emptyField 1 2 (Node.new 0 0) (Node.new 3 3) [0, 0, 5, 3] =
            .ok (grid', written) ∨
          generateObstacles emptyField 1 2 (Node.new 0 0) (Node.new 3 3) [0, 0, 5, 3] =
            .error (GenFault.outOfDraws grid' written)) ∧
        ∀ c ∈ written, 0 ≤ c.1 ∧ c.1 ≤ 2 ∧ 0 ≤ c.2 ∧ c.2 ≤ 2 := by
  refine ⟨by decide, by decide, by decide, ?_⟩
  obtain ⟨grid', written, h1, h2, _⟩ :=
    generateObstacles_in_range emptyField 4 4 (by decide) 1 2 (by decide) (by decide)
      (by decide) (Node.new 0 0) (Node.new 3 3) [0, 0, 5, 3]
  exact ⟨grid', written, h1, h2⟩
